import Mathlib

/-!
A verification development for the stacks-go codec library.

Byte strings are modelled as `List Nat` (each element a byte value `< 256`,
stated as a hypothesis where it matters).  Text strings are likewise byte
lists, matching Go's byte-indexed string representation.  The double-SHA-256
primitive comes from Go's standard library (`crypto/sha256`), which is not
part of this repository; definitions that use it take the hash function as
an explicit parameter.
-/

namespace StacksGo

/-- Length of the maximal all-`v` prefix of `l` (models the
`for i := 0; i < len && l[i] == v; i++ { count++ }` loops). -/
def leadCount (v : Nat) (l : List Nat) : Nat :=
  (l.takeWhile (fun x => x == v)).length

/-- Drop the trailing zero elements of a list (models the
`for position > 0 && output[position-1] == zero { position-- }` loops,
which shorten a buffer from its end while the last element is zero). -/
def trimTrailZeros (l : List Nat) : List Nat :=
  (l.reverse.dropWhile (fun x => x == 0)).reverse

/-- Number of trailing zero elements of `l` (models the
`for i := len(l)-1; i >= 0 && l[i] == 0; i-- { ... }` loops). -/
def trailZeroCount (l : List Nat) : Nat :=
  (l.reverse.takeWhile (fun x => x == 0)).length

/-! ### Base58 codec (`lib/address/base58.go`) -/

/-- ASCII bytes of `base58Chars = "123456789ABCDEFGHJKLMNPQRSTUVWXYZabcdefghijkmnopqrstuvwxyz"`. -/
def base58Chars : List Nat :=
  [49, 50, 51, 52, 53, 54, 55, 56, 57,                         -- ''1''..''9''
   65, 66, 67, 68, 69, 70, 71, 72,                             -- ''A''..''H''
   74, 75, 76, 77, 78,                                         -- ''J''..''N''
   80, 81, 82, 83, 84, 85, 86, 87, 88, 89, 90,                 -- ''P''..''Z''
   97, 98, 99, 100, 101, 102, 103, 104, 105, 106, 107,         -- ''a''..''k''
   109, 110, 111, 112, 113, 114, 115, 116, 117, 118, 119, 120, 121, 122]  -- ''m''..''z''

/-- The `base58Digits [128]int` lookup table: initialized to `-1`, then
`base58Digits[base58Chars[i]] = i` for each alphabet position `i`. -/
def base58Digits : List Int :=
  (List.range base58Chars.length).foldl
    (fun t i => t.set (base58Chars.getD i 0) (Int.ofNat i))
    (List.replicate 128 (-1))

/-- Digit lookup for one input byte: the Go decoder rejects bytes `>= 128`
and table entries `-1` (both with an invalid-character error). -/
def b58Lookup (c : Nat) : Option Nat :=
  if c < 128 then
    match base58Digits.getD c (-1) with
    | Int.ofNat d => some d
    | Int.negSucc _ => none
  else none

/-- Alphabet character for a digit value (`base58Chars[d]`). -/
def b58Char (d : Nat) : Nat := base58Chars.getD d 0

/-- One pass of `EncodeBase58`'s inner loop over the existing digits
(`j < resultLen` phase): multiply the base-58 little-endian accumulator by
256 via carry propagation.  Returns the updated digits and the leftover carry. -/
def b58MulAddDigits : List Nat → Nat → (List Nat × Nat)
  | [], carry => ([], carry)
  | d :: ds, carry =>
    let t := carry + 256 * d
    let r := b58MulAddDigits ds (t / 58)
    ((t % 58) :: r.1, r.2)

/-- The `carry != 0` phase of `EncodeBase58`'s inner loop: append base-58
digits of the leftover carry.  The loop runs at most `carry` iterations, made
explicit as a structural fuel argument (the caller passes `carry` itself). -/
def b58CarryDigits : Nat → Nat → List Nat
  | 0, _ => []
  | fuel + 1, carry =>
    if carry = 0 then [] else (carry % 58) :: b58CarryDigits fuel (carry / 58)

/-- One iteration of `EncodeBase58`'s outer loop: fold input byte `b` into the
little-endian base-58 digit accumulator (`result[0..resultLen]` in Go). -/
def b58Step (digits : List Nat) (b : Nat) : List Nat :=
  let r := b58MulAddDigits digits b
  r.1 ++ b58CarryDigits r.2 r.2

/-- `EncodeBase58`: leading zero bytes become leading ''1'' characters; the
remaining value is converted base-256 → base-58 and emitted most significant
digit first. -/
def EncodeBase58 (data : List Nat) : List Nat :=
  if data = [] then [] else
    let lz := leadCount 0 data
    let digits := data.foldl b58Step []
    List.replicate lz 49 ++ (digits.reverse.map b58Char)

inductive B58Err where
  | invalidChar (c : Nat)
  | checksumMismatch
  | tooShort
deriving DecidableEq

/-- The per-character validation of `DecodeBase58`'s loop (bytes `>= 128` and
bytes whose table entry is `-1` raise the invalid-character error, in input
order). -/
def mapB58Digits : List Nat → Except B58Err (List Nat)
  | [] => .ok []
  | c :: cs =>
    match b58Lookup c with
    | none => .error (.invalidChar c)
    | some d =>
      match mapB58Digits cs with
      | .error e => .error e
      | .ok ds => .ok (d :: ds)

/-- One iteration of `DecodeBase58`'s accumulation: multiply the fixed-width
buffer by 58 and add a digit, with carries propagated from the least
significant byte and the final carry discarded.  The Go buffer is big-endian
and processed from its last index; here the buffer is kept little-endian so
the processed end is the head. -/
def b58DecMulAdd : List Nat → Nat → List Nat
  | [], _ => []
  | b :: bs, carry =>
    let t := carry + 58 * b
    (t % 256) :: b58DecMulAdd bs (t / 256)

/-- `DecodeBase58`: validates characters, accumulates into a fixed buffer of
`1 + len*11/15` bytes, strips the buffer's leading zeros, and prepends one
zero byte per leading ''1'' character. -/
def DecodeBase58 (input : List Nat) : Except B58Err (List Nat) :=
  if input = [] then .ok [] else
    let n := 1 + input.length * 11 / 15
    let lz := leadCount 49 input
    match mapB58Digits input with
    | .error e => .error e
    | .ok digits =>
      let bufLE := digits.foldl b58DecMulAdd (List.replicate n 0)
      let skipped := bufLE.reverse.dropWhile (fun x => x == 0)
      .ok (List.replicate lz 0 ++ skipped)

/-! ### C32 codec (`lib/address/c32.go`) -/

/-- ASCII bytes of `c32Chars = "0123456789ABCDEFGHJKMNPQRSTVWXYZ"`. -/
def c32Chars : List Nat :=
  [48, 49, 50, 51, 52, 53, 54, 55, 56, 57,     -- ''0''..''9''
   65, 66, 67, 68, 69, 70, 71, 72,             -- ''A''..''H''
   74, 75,                                     -- ''J'' ''K''
   77, 78,                                     -- ''M'' ''N''
   80, 81, 82, 83, 84,                         -- ''P''..''T''
   86, 87, 88, 89, 90]                         -- ''V''..''Z''

/-- The `c32CharMap [128]int` table built by `init()`: `-1` everywhere, then
each alphabet character (and its lowercase form) maps to its index, then the
special pairs `O→0`, `L→1`, `I→1` (upper and lower case). -/
def c32Table : List Int :=
  let t :=
    (List.range c32Chars.length).foldl
      (fun t i =>
        let c := c32Chars.getD i 0
        let t := t.set c (Int.ofNat i)
        if 65 ≤ c ∧ c ≤ 90 then t.set (c + 32) (Int.ofNat i) else t)
      (List.replicate 128 (-1))
  [(79, 48), (76, 49), (73, 49)].foldl
    (fun t p =>
      let v := t.getD p.2 (-1)
      (t.set p.1 v).set (p.1 + 32) v)
    t

/-- Digit lookup for one input byte of a C32 string (`c32CharMap[c]`, with
bytes `>= 128` invalid). -/
def c32Lookup (c : Nat) : Option Nat :=
  if c < 128 then
    match c32Table.getD c (-1) with
    | Int.ofNat d => some d
    | Int.negSucc _ => none
  else none

/-- Alphabet character for a 5-bit digit (`c32Chars[d]`). -/
def c32Char (d : Nat) : Nat := c32Chars.getD d 0

/-- The bit-packing loop of `EncodeC32ToBuffer`: consumes input bytes (passed
here last-byte-first, as the Go loop runs `i := len-1; i >= 0; i--`) while
maintaining `carry`/`carryBits`, and emits 5-bit groups in little-endian
order, plus a final group for leftover carry bits. -/
def c32EncGroups : List Nat → Nat → Nat → List Nat
  | [], carry, carryBits => if 0 < carryBits then [carry] else []
  | b :: rest, carry, carryBits =>
    let lowBitsToTake := 5 - carryBits
    let lowBits := b % 2 ^ lowBitsToTake
    let d := lowBits * 2 ^ carryBits + carry
    let carryBits1 := (8 + carryBits) - 5
    let carry1 := b / 2 ^ (8 - carryBits1)
    if 5 ≤ carryBits1 then
      d :: (carry1 % 32) :: c32EncGroups rest (carry1 / 32) (carryBits1 - 5)
    else
      d :: c32EncGroups rest carry1 carryBits1

/-- `EncodeC32` (via `EncodeC32ToBuffer`): bit-pack the bytes into 5-bit
groups, trim the trailing zero groups (leading positions after the final
reversal), re-add one zero group per leading zero input byte, reverse, and
map groups to alphabet characters.  The Go code emits characters as it goes
and trims by comparing against `c32Chars[0]`; since the digit→character map
is injective this is the same as trimming zero digits and mapping at the end. -/
def EncodeC32 (input : List Nat) : List Nat :=
  if input = [] then [] else
    let digits := c32EncGroups input.reverse 0 0
    let withZeros := trimTrailZeros digits ++ List.replicate (leadCount 0 input) 0
    withZeros.reverse.map c32Char

inductive C32Err where
  | invalidChar (c : Nat)
  | notAscii
  | tooShort
  | decodedTooShort
  | checksumMismatch
  | invalidVersion (v : Nat)
deriving DecidableEq

/-- The digit-collection loop of `DecodeC32Bytes`: `c32Digits[len-1-i] =
c32CharMap[input[i]]` for `i` from the last index down, failing on the first
invalid byte encountered in that order.  The input is passed here already
reversed. -/
def mapC32Digits : List Nat → Except C32Err (List Nat)
  | [] => .ok []
  | c :: cs =>
    match c32Lookup c with
    | none => .error (.invalidChar c)
    | some d =>
      match mapC32Digits cs with
      | .error e => .error e
      | .ok ds => .ok (d :: ds)

/-- The bit-unpacking loop of `DecodeC32Bytes`: accumulate 5-bit digits into
`carry` (a `uint16`), emitting a byte (`byte(carry & 0xFF)`) whenever 8 bits
are available, plus a final `byte(carry)` for leftover bits. -/
def c32DecGroups : List Nat → Nat → Nat → List Nat
  | [], carry, carryBits => if 0 < carryBits then [carry % 256] else []
  | d :: rest, carry, carryBits =>
    let carry1 := carry + d * 2 ^ carryBits
    let carryBits1 := carryBits + 5
    if 8 ≤ carryBits1 then
      (carry1 % 256) :: c32DecGroups rest (carry1 / 256) (carryBits1 - 8)
    else
      c32DecGroups rest carry1 carryBits1

/-- `DecodeC32Bytes`: look up digits (last byte first), unpack 5-bit groups
into bytes, trim trailing zero bytes, re-add one zero byte per trailing zero
digit (i.e. per leading ''0'' character of the input), and reverse. -/
def DecodeC32Bytes (input : List Nat) : Except C32Err (List Nat) :=
  if input = [] then .ok [] else
    match mapC32Digits input.reverse with
    | .error e => .error e
    | .ok c32Digits =>
      let result := c32DecGroups c32Digits 0 0
      let result := trimTrailZeros result
      let result := result ++ List.replicate (trailZeroCount c32Digits) 0
      .ok result.reverse

/-- `DecodeC32`: rejects non-ASCII bytes, then delegates to `DecodeC32Bytes`. -/
def DecodeC32 (input : List Nat) : Except C32Err (List Nat) :=
  if input.all (fun c => c < 128) then DecodeC32Bytes input else .error .notAscii

/-- One character replacement that the spec declares harmless on a C32 string:
keep the character, lowercase an uppercase letter, replace `O`/`o` by `0`, or
replace `I`/`i`/`L`/`l` by `1`. -/
def c32NormStep (c c' : Nat) : Prop :=
  c' = c ∨
  (65 ≤ c ∧ c ≤ 90 ∧ c' = c + 32) ∨
  ((c = 79 ∨ c = 111) ∧ c' = 48) ∨
  ((c = 73 ∨ c = 105 ∨ c = 76 ∨ c = 108) ∧ c' = 49)

/-- `C32CheckEncodePrefixed`: checksum over `version ++ data` (first 4 bytes
of the double hash), C32-encode `data ++ checksum`, and prepend the prefix
byte and the alphabet character of `version`.  The double-SHA-256 primitive
is the external `sha` parameter.  (`EncodeC32ToBuffer` is applied to
`data ++ checksum`, which is never empty, so it agrees with `EncodeC32`.) -/
def C32CheckEncodePrefixed (sha : List Nat → List Nat) (version : Nat)
    (data : List Nat) (prefixByte : Nat) : Except C32Err (List Nat) :=
  if 32 ≤ version then .error (.invalidVersion version) else
    let checksum := (sha (sha (version :: data))).take 4
    let buffer := data ++ checksum
    .ok (prefixByte :: c32Char version :: EncodeC32 buffer)

/-- `C32CheckDecode`: ASCII check, length `>= 2`, split version character from
body, C32-decode the body, require at least 4 decoded bytes, split off the
4-byte checksum, decode the version character on its own, and verify the
checksum over `version ++ data`.  (`versionDecoded[0]` is modelled with
`headD`; decoding a single alphabet character never yields an empty list.) -/
def C32CheckDecode (sha : List Nat → List Nat) (input : List Nat) :
    Except C32Err (Nat × List Nat) :=
  if ¬ input.all (fun c => c < 128) then .error .notAscii
  else if input.length < 2 then .error .tooShort
  else
    let versionChar := input.headD 0
    let dataPart := input.tail
    match DecodeC32 dataPart with
    | .error e => .error e
    | .ok decodedData =>
      if decodedData.length < 4 then .error .decodedTooShort
      else
        let dataBytes := decodedData.take (decodedData.length - 4)
        let expectedSum := decodedData.drop (decodedData.length - 4)
        match DecodeC32 [versionChar] with
        | .error e => .error e
        | .ok versionDecoded =>
          let version := versionDecoded.headD 0
          let computedSum := (sha (sha (version :: dataBytes))).take 4
          if computedSum = expectedSum then .ok (version, dataBytes)
          else .error .checksumMismatch

/-! ### Clarity value model (`lib/clarity_value/types.go`) -/

def MaxStringLen : Nat := 128
def MaxValueSize : Nat := 1024 * 1024
def ContractMinNameLength : Nat := 1
def ContractMaxNameLength : Nat := 40

/-- `[a-zA-Z]` on a byte. -/
def isAlphaByte (c : Nat) : Bool :=
  decide ((65 ≤ c ∧ c ≤ 90) ∨ (97 ≤ c ∧ c ≤ 122))

/-- `[0-9]` on a byte. -/
def isDigitByte (c : Nat) : Bool := decide (48 ≤ c ∧ c ≤ 57)

/-- The character class `[-_!?+<>=/*]` of the ClarityName regex. -/
def isClaritySpecialByte (c : Nat) : Bool :=
  decide (c ∈ [45, 95, 33, 63, 43, 60, 62, 61, 47, 42])

/-- `clarityNameRegex`: the anchored pattern
`[a-zA-Z]([a-zA-Z0-9]|[-_!?+<>=/*])* | [-+=/*] | [<>]=?` on the byte string. -/
def clarityNameOk (s : List Nat) : Bool :=
  (match s with
   | [] => false
   | c :: rest =>
     isAlphaByte c &&
       rest.all (fun x => isAlphaByte x || isDigitByte x || isClaritySpecialByte x))
  || decide (s ∈ [[45], [43], [61], [47], [42]])
  || decide (s ∈ [[60], [62], [60, 61], [62, 61]])

/-- `contractNameRegex`: `[a-zA-Z]([a-zA-Z0-9]|[-_])*` or the reserved
literal `__transient`. -/
def contractNameOk (s : List Nat) : Bool :=
  (match s with
   | [] => false
   | c :: rest =>
     isAlphaByte c && rest.all (fun x => isAlphaByte x || isDigitByte x || x == 45 || x == 95))
  || s == [95, 95, 116, 114, 97, 110, 115, 105, 101, 110, 116]

/-- Errors raised by the clarity-value deserializer (and name validation). -/
inductive DecodeError where
  | eof
  | typeSignatureTooDeep (depth : Nat)
  | clarityNameTooLong (len : Nat)
  | contractNameBadLen (len : Nat)
  | badClarityName (s : List Nat)
  | badContractName (s : List Nat)
  | illegalBufferSize
  | illegalListSize
  | illegalTupleSize
  | illegalStringAsciiSize
  | illegalStringUtf8Size
  | badTypeTag
  | outOfFuel
deriving DecidableEq

/-- `ValidateClarityName`: rejects strings longer than `MaxStringLen` or not
matching the name grammar. -/
def ValidateClarityName (s : List Nat) : Except DecodeError (List Nat) :=
  if MaxStringLen < s.length then .error (.badClarityName s)
  else if clarityNameOk s then .ok s
  else .error (.badClarityName s)

/-- `ValidateContractName`: rejects strings longer than `MaxStringLen` or not
matching the contract-name grammar (no 1–40 length bound here). -/
def ValidateContractName (s : List Nat) : Except DecodeError (List Nat) :=
  if MaxStringLen < s.length then .error (.badContractName s)
  else if contractNameOk s then .ok s
  else .error (.badContractName s)

mutual
/-- `ClarityValue`: optional captured wire bytes plus the value. -/
inductive ClarityValue where
  | mk (serializedBytes : Option (List Nat)) (value : ClarityVal)

/-- The closed set of Clarity value variants (`Value` implementations). -/
inductive ClarityVal where
  | intV (v : Int)
  | uintV (v : Nat)
  | bufferV (data : List Nat)
  | boolV (b : Bool)
  | principalStandardV (version : Nat) (hash : List Nat)
  | principalContractV (version : Nat) (hash : List Nat) (name : List Nat)
  | responseOkV (v : ClarityValue)
  | responseErrV (v : ClarityValue)
  | optionalNoneV
  | optionalSomeV (v : ClarityValue)
  | listV (items : List ClarityValue)
  | tupleV (entries : List (List Nat × ClarityValue))
  | stringAsciiV (data : List Nat)
  | stringUtf8V (chars : List (List Nat))
end

def ClarityValue.serializedBytes : ClarityValue → Option (List Nat)
  | .mk sb _ => sb

def ClarityValue.value : ClarityValue → ClarityVal
  | .mk _ v => v

/-- Go map assignment `data[key] = val` on the tuple's key→value mapping:
overwrite the existing entry for `key`, or add a new one. -/
def tupleInsert (entries : List (List Nat × ClarityValue)) (k : List Nat)
    (v : ClarityValue) : List (List Nat × ClarityValue) :=
  if entries.any (fun q => q.1 == k)
  then entries.map (fun q => if q.1 == k then (q.1, v) else q)
  else entries ++ [(k, v)]

/-- Go map indexing `v[key]` on the tuple's mapping. -/
def tupleLookup (entries : List (List Nat × ClarityValue)) (k : List Nat) :
    Option ClarityValue :=
  (entries.find? (fun q => q.1 == k)).map (fun q => q.2)

/-! ### Canonical rendering (`ReprString` / `TypeSignature`) -/

/-- Decimal digits (ASCII) of a natural number, most significant first; the
fuel argument bounds the division chain. -/
def natDecAux : Nat → Nat → List Nat
  | 0, _ => []
  | fuel + 1, n => if n < 10 then [48 + n] else natDecAux fuel (n / 10) ++ [48 + n % 10]

/-- ASCII decimal rendering of a natural number (`fmt "%d"`). -/
def natDecimal (n : Nat) : List Nat := natDecAux (n + 1) n

/-- ASCII decimal rendering of an `int64` value (`fmt "%d"`). -/
def intDecimal (v : Int) : List Nat :=
  if v < 0 then 45 :: natDecimal v.natAbs else natDecimal v.toNat

/-- Lowercase hex digit. -/
def hexDigit (d : Nat) : Nat := if d < 10 then 48 + d else 87 + d

/-- Two lowercase hex digits of a byte (`%02x`). -/
def hex2 (c : Nat) : List Nat := [hexDigit (c / 16 % 16), hexDigit (c % 16)]

/-- `hex.EncodeToString`: lowercase hex of a byte string. -/
def hexOf (data : List Nat) : List Nat := (data.map hex2).flatten

/-- `escapeASCII`: named escapes for control characters and quote/backslash,
`\xHH` for other non-printable bytes, else the byte itself. -/
def escapeASCII (c : Nat) : List Nat :=
  if c = 7 then [92, 97]
  else if c = 8 then [92, 98]
  else if c = 9 then [92, 116]
  else if c = 10 then [92, 110]
  else if c = 11 then [92, 118]
  else if c = 12 then [92, 102]
  else if c = 13 then [92, 114]
  else if c = 34 then [92, 34]
  else if c = 92 then [92, 92]
  else if c < 32 ∨ 127 ≤ c then [92, 120] ++ hex2 c
  else [c]

/-- Byte-wise lexicographic `≤` on byte strings: the order used by Go's
`sort.Strings` over tuple keys. -/
def lexLe : List Nat → List Nat → Bool
  | [], _ => true
  | _ :: _, [] => false
  | a :: as, b :: bs => if a < b then true else if b < a then false else lexLe as bs

/-- The `"ERROR: %s"` rendering of a failed `EncodeC32Address` inside a
principal's `ReprString` (message `"invalid version %d"`). -/
def versionErrRepr (version : Nat) : List Nat :=
  [69, 82, 82, 79, 82, 58, 32] ++
    [105, 110, 118, 97, 108, 105, 100, 32, 118, 101, 114, 115, 105, 111, 110, 32] ++
    natDecimal version

/-- `"UnknownType"`. -/
def unknownType : List Nat := [85, 110, 107, 110, 111, 119, 110, 84, 121, 112, 101]

mutual
/-- `ReprString` on a wrapped value. -/
def ReprCV (sha : List Nat → List Nat) (cv : ClarityValue) : List Nat :=
  match cv with
  | .mk _ v => ReprString sha v
termination_by sizeOf cv
decreasing_by simp_wf

/-- `ReprString`: the canonical display string of each variant, as bytes.
Principals render through `EncodeC32Address` (prefix byte `'S'` = 83), which
needs the external double-SHA-256 `sha`.  For tuples the Go code iterates the
lexicographically sorted keys and renders the map entry of each key; here
each entry is rendered first and the sorted keys select among the rendered
entries, which is the same value-by-value. -/
def ReprString (sha : List Nat → List Nat) (val : ClarityVal) : List Nat :=
  match val with
  | .intV v => intDecimal v
  | .uintV v => 117 :: natDecimal v
  | .bufferV data => hexOf data
  | .boolV true => [116, 114, 117, 101]
  | .boolV false => [102, 97, 108, 115, 101]
  | .principalStandardV version hash =>
    match C32CheckEncodePrefixed sha version hash 83 with
    | .ok addr => 39 :: addr
    | .error _ => versionErrRepr version
  | .principalContractV version hash name =>
    match C32CheckEncodePrefixed sha version hash 83 with
    | .ok addr => 39 :: addr ++ [46] ++ name
    | .error _ => versionErrRepr version
  | .responseOkV v => [40, 111, 107, 32] ++ ReprCV sha v ++ [41]
  | .responseErrV v => [40, 101, 114, 114, 32] ++ ReprCV sha v ++ [41]
  | .optionalNoneV => [110, 111, 110, 101]
  | .optionalSomeV v => [40, 115, 111, 109, 101, 32] ++ ReprCV sha v ++ [41]
  | .listV items =>
    [40, 108, 105, 115, 116] ++
      (items.attach.map (fun x => 32 :: ReprCV sha x.1)).flatten ++ [41]
  | .tupleV entries =>
    let rendered := entries.attach.map (fun q => (q.1.1, ReprCV sha q.1.2))
    let keys := (entries.map (fun q => q.1)).mergeSort lexLe
    [40, 116, 117, 112, 108, 101] ++
      (keys.map (fun k =>
        [32, 40] ++ k ++ [32] ++
          (((rendered.find? (fun q => q.1 == k)).map (fun q => q.2)).getD []) ++ [41])).flatten
      ++ [41]
  | .stringAsciiV data => [34] ++ (data.map escapeASCII).flatten ++ [34]
  | .stringUtf8V chars =>
    [117, 34] ++
      (chars.map (fun c =>
        if 1 < c.length then [92, 117, 123] ++ hexOf c ++ [125]
        else escapeASCII (c.headD 0))).flatten ++ [34]
termination_by sizeOf val
decreasing_by
  all_goals simp_wf
  · have h := List.sizeOf_lt_of_mem x.2
    omega
  · have h := List.sizeOf_lt_of_mem q.2
    rcases q with ⟨⟨k, v⟩, hq⟩
    simp at h
    simp
    omega
end

mutual
/-- `TypeSignature` on a wrapped value. -/
def TypeSigCV (cv : ClarityValue) : List Nat :=
  match cv with
  | .mk _ v => TypeSignature v
termination_by sizeOf cv
decreasing_by simp_wf

/-- `TypeSignature`: the canonical type grammar string of each variant. -/
def TypeSignature (val : ClarityVal) : List Nat :=
  match val with
  | .intV _ => [105, 110, 116]
  | .uintV _ => [117, 105, 110, 116]
  | .bufferV data => [40, 98, 117, 102, 102, 32] ++ natDecimal data.length ++ [41]
  | .boolV _ => [98, 111, 111, 108]
  | .principalStandardV _ _ => [112, 114, 105, 110, 99, 105, 112, 97, 108]
  | .principalContractV _ _ _ => [112, 114, 105, 110, 99, 105, 112, 97, 108]
  | .responseOkV v =>
    [40, 114, 101, 115, 112, 111, 110, 115, 101, 32] ++ TypeSigCV v ++ [32] ++
      unknownType ++ [41]
  | .responseErrV v =>
    [40, 114, 101, 115, 112, 111, 110, 115, 101, 32] ++ unknownType ++ [32] ++
      TypeSigCV v ++ [41]
  | .optionalNoneV => [40, 111, 112, 116, 105, 111, 110, 97, 108, 32] ++ unknownType ++ [41]
  | .optionalSomeV v => [40, 111, 112, 116, 105, 111, 110, 97, 108, 32] ++ TypeSigCV v ++ [41]
  | .listV items =>
    [40, 108, 105, 115, 116, 32] ++ natDecimal items.length ++ [32] ++
      (match items with
       | [] => unknownType
       | x :: _ => TypeSigCV x) ++ [41]
  | .tupleV entries =>
    let rendered := entries.attach.map (fun q => (q.1.1, TypeSigCV q.1.2))
    let keys := (entries.map (fun q => q.1)).mergeSort lexLe
    [40, 116, 117, 112, 108, 101] ++
      (keys.map (fun k =>
        [32, 40] ++ k ++ [32] ++
          (((rendered.find? (fun q => q.1 == k)).map (fun q => q.2)).getD []) ++ [41])).flatten
      ++ [41]
  | .stringAsciiV data =>
    [40, 115, 116, 114, 105, 110, 103, 45, 97, 115, 99, 105, 105, 32] ++
      natDecimal data.length ++ [41]
  | .stringUtf8V chars =>
    [40, 115, 116, 114, 105, 110, 103, 45, 117, 116, 102, 56, 32] ++
      natDecimal (chars.length * 4) ++ [41]
termination_by sizeOf val
decreasing_by
  all_goals simp_wf
  all_goals try omega
  · have h := List.sizeOf_lt_of_mem q.2
    rcases q with ⟨⟨k, v⟩, hq⟩
    simp at h
    simp
    omega
end

/-! ### Deserializer (`lib/clarity_value/deserialize.go`)

The reader cursor is modelled by the list of remaining bytes: reading
consumes from the front, and a decode step returns the value together with
the bytes left over.  Byte-span capture (`withBytes`) recovers the consumed
prefix, exactly as the Go code re-reads `input[startPos:endPos]`. -/

/-- `r.ReadByte()`. -/
def readByte : List Nat → Except DecodeError (Nat × List Nat)
  | [] => .error .eof
  | b :: rest => .ok (b, rest)

/-- `io.ReadFull(r, make([]byte, n))`: exactly `n` bytes or an EOF error. -/
def readChunk (n : Nat) (rem : List Nat) : Except DecodeError (List Nat × List Nat) :=
  if rem.length < n then .error .eof else .ok (rem.take n, rem.drop n)

/-- Big-endian value of a byte string (`binary.BigEndian`). -/
def beNat (bs : List Nat) : Nat := bs.foldl (fun a b => a * 256 + b) 0

/-- `binary.Read(r, binary.BigEndian, &x)` for a `uint32`. -/
def readU32 (rem : List Nat) : Except DecodeError (Nat × List Nat) :=
  match readChunk 4 rem with
  | .error e => .error e
  | .ok (bs, rest) => .ok (beNat bs, rest)

/-- Reinterpret a `uint64` value as an `int64` (the `int64(u)` conversion). -/
def toSigned64 (u : Nat) : Int :=
  if u < 2 ^ 63 then (u : Int) else (u : Int) - 2 ^ 64

/-- `DecodeClarityName`: length byte (≤ `MaxStringLen`), name bytes, grammar
validation. -/
def DecodeClarityName (rem : List Nat) : Except DecodeError (List Nat × List Nat) :=
  match readByte rem with
  | .error e => .error e
  | .ok (lenByte, rest) =>
    if MaxStringLen < lenByte then .error (.clarityNameTooLong lenByte)
    else
      match readChunk lenByte rest with
      | .error e => .error e
      | .ok (data, rest1) =>
        match ValidateClarityName data with
        | .error e => .error e
        | .ok s => .ok (s, rest1)

/-- `DecodeContractName`: length byte (within `ContractMinNameLength` to
`ContractMaxNameLength`), name bytes, grammar validation. -/
def DecodeContractName (rem : List Nat) : Except DecodeError (List Nat × List Nat) :=
  match readByte rem with
  | .error e => .error e
  | .ok (lenByte, rest) =>
    if lenByte < ContractMinNameLength ∨ ContractMaxNameLength < lenByte then
      .error (.contractNameBadLen lenByte)
    else
      match readChunk lenByte rest with
      | .error e => .error e
      | .ok (data, rest1) =>
        match ValidateContractName data with
        | .error e => .error e
        | .ok s => .ok (s, rest1)

/-- `DecodeStandardPrincipalData`: version byte plus 20-byte hash. -/
def DecodeStandardPrincipalData (rem : List Nat) :
    Except DecodeError ((Nat × List Nat) × List Nat) :=
  match readByte rem with
  | .error e => .error e
  | .ok (version, rest) =>
    match readChunk 20 rest with
    | .error e => .error e
    | .ok (hash, rest1) => .ok ((version, hash), rest1)

/-- Split a byte string into per-rune byte groups, following Go's
`for _, r := range string(bytes)` (UTF-8 decoding with the standard accept
ranges; an invalid sequence yields the replacement character U+FFFD and
advances one byte; for a valid rune, `[]byte(string(r))` is exactly the
consumed bytes).  The fuel argument is the input length, which bounds the
number of runes. -/
def utf8SplitAux : Nat → List Nat → List (List Nat)
  | 0, _ => []
  | _, [] => []
  | fuel + 1, b :: rest =>
    if b < 128 then [b] :: utf8SplitAux fuel rest
    else if 194 ≤ b ∧ b ≤ 223 then
      match rest with
      | b1 :: rest1 =>
        if 128 ≤ b1 ∧ b1 ≤ 191 then [b, b1] :: utf8SplitAux fuel rest1
        else [239, 191, 189] :: utf8SplitAux fuel rest
      | [] => [239, 191, 189] :: utf8SplitAux fuel rest
    else if 224 ≤ b ∧ b ≤ 239 then
      match rest with
      | b1 :: b2 :: rest2 =>
        if ((b = 224 ∧ 160 ≤ b1 ∧ b1 ≤ 191) ∨
            (225 ≤ b ∧ b ≤ 236 ∧ 128 ≤ b1 ∧ b1 ≤ 191) ∨
            (b = 237 ∧ 128 ≤ b1 ∧ b1 ≤ 159) ∨
            (238 ≤ b ∧ b ≤ 239 ∧ 128 ≤ b1 ∧ b1 ≤ 191)) ∧
           (128 ≤ b2 ∧ b2 ≤ 191) then
          [b, b1, b2] :: utf8SplitAux fuel rest2
        else [239, 191, 189] :: utf8SplitAux fuel rest
      | _ => [239, 191, 189] :: utf8SplitAux fuel rest
    else if 240 ≤ b ∧ b ≤ 244 then
      match rest with
      | b1 :: b2 :: b3 :: rest3 =>
        if ((b = 240 ∧ 144 ≤ b1 ∧ b1 ≤ 191) ∨
            (241 ≤ b ∧ b ≤ 243 ∧ 128 ≤ b1 ∧ b1 ≤ 191) ∨
            (b = 244 ∧ 128 ≤ b1 ∧ b1 ≤ 143)) ∧
           (128 ≤ b2 ∧ b2 ≤ 191) ∧ (128 ≤ b3 ∧ b3 ≤ 191) then
          [b, b1, b2, b3] :: utf8SplitAux fuel rest3
        else [239, 191, 189] :: utf8SplitAux fuel rest
      | _ => [239, 191, 189] :: utf8SplitAux fuel rest
    else [239, 191, 189] :: utf8SplitAux fuel rest

/-- `NewStringUTF8Value`: group the raw bytes by Unicode scalar. -/
def utf8Split (bs : List Nat) : List (List Nat) := utf8SplitAux bs.length bs

/-- The list-element loop of the `PrefixList` case: decode `count` child
values in sequence, threading the cursor, aborting on the first error. -/
def runItems (child : List Nat → Except DecodeError (ClarityValue × List Nat)) :
    Nat → List Nat → Except DecodeError (List ClarityValue × List Nat)
  | 0, rem => .ok ([], rem)
  | n + 1, rem =>
    match child rem with
    | .error e => .error e
    | .ok (v, rem1) =>
      match runItems child n rem1 with
      | .error e => .error e
      | .ok (vs, rem2) => .ok (v :: vs, rem2)

/-- The pair loop of the `PrefixTuple` case: decode `count` (key, value)
pairs, inserting each into the map (`data[key] = val`). -/
def runPairs (child : List Nat → Except DecodeError (ClarityValue × List Nat)) :
    Nat → List Nat → List (List Nat × ClarityValue) →
    Except DecodeError (List (List Nat × ClarityValue) × List Nat)
  | 0, rem, acc => .ok (acc, rem)
  | n + 1, rem, acc =>
    match DecodeClarityName rem with
    | .error e => .error e
    | .ok (key, rem1) =>
      match child rem1 with
      | .error e => .error e
      | .ok (v, rem2) => runPairs child n rem2 (tupleInsert acc key v)

/-- The tail of `decodeClarityValueInternal`: on success, when `withBytes`
is set, record the bytes consumed by this node (`input[startPos:endPos]` in
Go; here the prefix of the entry remainder `rem` not left in `rem1`). -/
def wrapResult (rem : List Nat) (withBytes : Bool)
    (core : Except DecodeError (ClarityVal × List Nat)) :
    Except DecodeError (ClarityValue × List Nat) :=
  match core with
  | .error e => .error e
  | .ok (value, rem1) =>
    if withBytes then
      .ok (.mk (some (rem.take (rem.length - rem1.length))) value, rem1)
    else .ok (.mk none value, rem1)

/-- `decodeClarityValueInternal`.  Recursion is structural on the extra
`fuel` parameter; since every recursive call increments `depth`, which the
`depth >= 16` guard bounds, fuel `17` at the entry point (depth 0) always
suffices and the `.outOfFuel` branch is unreachable from
`DecodeClarityValue`. -/
def decodeClarityValueInternal :
    Nat → List Nat → Nat → Bool → Except DecodeError (ClarityValue × List Nat)
  | 0, _, _, _ => .error .outOfFuel
  | fuel + 1, rem, depth, withBytes =>
    if 16 ≤ depth then .error (.typeSignatureTooDeep depth)
    else
      let core : Except DecodeError (ClarityVal × List Nat) :=
        match readByte rem with
        | .error e => .error e
        | .ok (header, rest) =>
          match header with
          | 0 =>  -- PrefixInt
            match readChunk 16 rest with
            | .error e => .error e
            | .ok (buf, rest1) => .ok (.intV (toSigned64 (beNat (buf.drop 8))), rest1)
          | 1 =>  -- PrefixUInt
            match readChunk 16 rest with
            | .error e => .error e
            | .ok (buf, rest1) => .ok (.uintV (beNat (buf.drop 8)), rest1)
          | 2 =>  -- PrefixBuffer
            match readU32 rest with
            | .error e => .error e
            | .ok (bufLen, rest1) =>
              if MaxValueSize < bufLen then .error .illegalBufferSize
              else
                match readChunk bufLen rest1 with
                | .error e => .error e
                | .ok (data, rest2) => .ok (.bufferV data, rest2)
          | 3 => .ok (.boolV true, rest)   -- PrefixBoolTrue
          | 4 => .ok (.boolV false, rest)  -- PrefixBoolFalse
          | 5 =>  -- PrefixPrincipalStandard
            match DecodeStandardPrincipalData rest with
            | .error e => .error e
            | .ok ((version, hash), rest1) => .ok (.principalStandardV version hash, rest1)
          | 6 =>  -- PrefixPrincipalContract
            match DecodeStandardPrincipalData rest with
            | .error e => .error e
            | .ok ((version, hash), rest1) =>
              match DecodeClarityName rest1 with
              | .error e => .error e
              | .ok (name, rest2) => .ok (.principalContractV version hash name, rest2)
          | 7 =>  -- PrefixResponseOk
            match decodeClarityValueInternal fuel rest (depth + 1) withBytes with
            | .error e => .error e
            | .ok (v, rest1) => .ok (.responseOkV v, rest1)
          | 8 =>  -- PrefixResponseErr
            match decodeClarityValueInternal fuel rest (depth + 1) withBytes with
            | .error e => .error e
            | .ok (v, rest1) => .ok (.responseErrV v, rest1)
          | 9 => .ok (.optionalNoneV, rest)  -- PrefixOptionalNone
          | 10 =>  -- PrefixOptionalSome
            match decodeClarityValueInternal fuel rest (depth + 1) withBytes with
            | .error e => .error e
            | .ok (v, rest1) => .ok (.optionalSomeV v, rest1)
          | 11 =>  -- PrefixList
            match readU32 rest with
            | .error e => .error e
            | .ok (listLen, rest1) =>
              if MaxValueSize < listLen then .error .illegalListSize
              else
                match runItems
                    (fun r => decodeClarityValueInternal fuel r (depth + 1) withBytes)
                    listLen rest1 with
                | .error e => .error e
                | .ok (items, rest2) => .ok (.listV items, rest2)
          | 12 =>  -- PrefixTuple
            match readU32 rest with
            | .error e => .error e
            | .ok (tupleLen, rest1) =>
              if MaxValueSize < tupleLen then .error .illegalTupleSize
              else
                match runPairs
                    (fun r => decodeClarityValueInternal fuel r (depth + 1) withBytes)
                    tupleLen rest1 [] with
                | .error e => .error e
                | .ok (entries, rest2) => .ok (.tupleV entries, rest2)
          | 13 =>  -- PrefixStringASCII
            match readU32 rest with
            | .error e => .error e
            | .ok (bufLen, rest1) =>
              if MaxValueSize < bufLen then .error .illegalStringAsciiSize
              else
                match readChunk bufLen rest1 with
                | .error e => .error e
                | .ok (data, rest2) => .ok (.stringAsciiV data, rest2)
          | 14 =>  -- PrefixStringUTF8
            match readU32 rest with
            | .error e => .error e
            | .ok (totalLen, rest1) =>
              if MaxValueSize < totalLen then .error .illegalStringUtf8Size
              else
                match readChunk totalLen rest1 with
                | .error e => .error e
                | .ok (data, rest2) => .ok (.stringUtf8V (utf8Split data), rest2)
          | _ => .error .badTypeTag
      wrapResult rem withBytes core

/-- `DecodeClarityValue`: entry point at depth 0 (fuel 17 covers the
depth-bounded recursion).  Returns the decoded value and the remaining
(unconsumed) bytes, i.e. the final reader position. -/
def DecodeClarityValue (input : List Nat) (withBytes : Bool) :
    Except DecodeError (ClarityValue × List Nat) :=
  decodeClarityValueInternal 17 input 0 withBytes

/-- Relates the outcomes of two decoder runs on the same remaining input
`rem`: they fail with the same error, or both succeed consuming the same
prefix of `rem` (the values may differ, e.g. in captured bytes). -/
def SameShape (rem : List Nat) (x y : Except DecodeError (ClarityValue × List Nat)) :
    Prop :=
  (∃ e, x = .error e ∧ y = .error e) ∨
  (∃ cv cv2 rem' c, x = .ok (cv, rem') ∧ y = .ok (cv2, rem') ∧ rem = c ++ rem')

/-- `SameShape` for the un-wrapped (`ClarityVal`) stage of a decode step. -/
def SameShapeV (rem : List Nat) (x y : Except DecodeError (ClarityVal × List Nat)) :
    Prop :=
  (∃ e, x = .error e ∧ y = .error e) ∨
  (∃ v w rem' c, x = .ok (v, rem') ∧ y = .ok (w, rem') ∧ rem = c ++ rem')

/-- `SameShape` for the list-of-items loop results. -/
def SameShapeL (rem : List Nat)
    (x y : Except DecodeError (List ClarityValue × List Nat)) : Prop :=
  (∃ e, x = .error e ∧ y = .error e) ∨
  (∃ vs ws rem' c, x = .ok (vs, rem') ∧ y = .ok (ws, rem') ∧ rem = c ++ rem')

/-- `SameShape` for the tuple-pairs loop results. -/
def SameShapeP (rem : List Nat)
    (x y : Except DecodeError (List (List Nat × ClarityValue) × List Nat)) : Prop :=
  (∃ e, x = .error e ∧ y = .error e) ∨
  (∃ vs ws rem' c, x = .ok (vs, rem') ∧ y = .ok (ws, rem') ∧ rem = c ++ rem')

/-! ## Basic reading lemmas -/

theorem readU32_cons (b0 b1 b2 b3 : Nat) (rest : List Nat) :
    readU32 (b0 :: b1 :: b2 :: b3 :: rest) = .ok (beNat [b0, b1, b2, b3], rest) := by
  simp only [readU32, readChunk, List.length_cons]
  rw [if_neg (by omega)]
  simp [beNat]

theorem readChunk_exact (payload rest : List Nat) :
    readChunk payload.length (payload ++ rest) = .ok (payload, rest) := by
  simp [readChunk, List.take_left, List.drop_left]

theorem beNat_fold_lt (l : List Nat) (h : ∀ b ∈ l, b < 256) :
    ∀ a : Nat, l.foldl (fun a b => a * 256 + b) a < (a + 1) * 256 ^ l.length := by
  induction l with
  | nil => intro a; simp
  | cons c cs ih =>
    intro a
    have hc : c < 256 := h c (by simp)
    have h1 := ih (fun x hx => h x (by simp [hx])) (a * 256 + c)
    calc (c :: cs).foldl (fun a b => a * 256 + b) a
        = cs.foldl (fun a b => a * 256 + b) (a * 256 + c) := by simp
      _ < (a * 256 + c + 1) * 256 ^ cs.length := h1
      _ ≤ ((a + 1) * 256) * 256 ^ cs.length := by nlinarith
      _ = (a + 1) * 256 ^ (cs.length + 1) := by ring

theorem beNat_lt (l : List Nat) (h : ∀ b ∈ l, b < 256) : beNat l < 256 ^ l.length := by
  have := beNat_fold_lt l h 0
  simpa [beNat] using this

theorem readByte_ok {rem rem' : List Nat} {b : Nat}
    (h : readByte rem = .ok (b, rem')) : rem = b :: rem' := by
  cases rem with
  | nil => exact (Except.noConfusion h)
  | cons c cs =>
    simp only [readByte, Except.ok.injEq, Prod.mk.injEq] at h
    rw [h.1, h.2]

theorem readChunk_ok {n : Nat} {rem data rem' : List Nat}
    (h : readChunk n rem = .ok (data, rem')) : rem = data ++ rem' ∧ data.length = n := by
  unfold readChunk at h
  split at h
  · exact (Except.noConfusion h)
  · simp only [Except.ok.injEq, Prod.mk.injEq] at h
    obtain ⟨h1, h2⟩ := h
    subst h1; subst h2
    refine ⟨(List.take_append_drop n rem).symm, ?_⟩
    simp; omega

theorem readU32_ok {rem rem' : List Nat} {v : Nat}
    (h : readU32 rem = .ok (v, rem')) : ∃ bs, rem = bs ++ rem' ∧ bs.length = 4 := by
  unfold readU32 at h
  split at h
  · exact (Except.noConfusion h)
  · rename_i bs rest heq
    simp only [Except.ok.injEq, Prod.mk.injEq] at h
    obtain ⟨-, h2⟩ := h
    subst h2
    obtain ⟨h1, h2⟩ := readChunk_ok heq
    exact ⟨bs, h1, h2⟩

theorem decodeClarityName_suffix {rem s rem' : List Nat}
    (h : DecodeClarityName rem = .ok (s, rem')) : ∃ c, rem = c ++ rem' := by
  unfold DecodeClarityName at h
  split at h
  · exact (Except.noConfusion h)
  · rename_i lenByte rest hrb
    split at h
    · exact (Except.noConfusion h)
    · split at h
      · exact (Except.noConfusion h)
      · rename_i data rest1 hrc
        split at h
        · exact (Except.noConfusion h)
        · simp only [Except.ok.injEq, Prod.mk.injEq] at h
          obtain ⟨-, h2⟩ := h
          subst h2
          obtain ⟨hc1, -⟩ := readChunk_ok hrc
          exact ⟨lenByte :: data, by rw [readByte_ok hrb, hc1]; rfl⟩

theorem decodeStandardPrincipal_suffix {rem rem' : List Nat} {p : Nat × List Nat}
    (h : DecodeStandardPrincipalData rem = .ok (p, rem')) : ∃ c, rem = c ++ rem' := by
  unfold DecodeStandardPrincipalData at h
  split at h
  · exact (Except.noConfusion h)
  · rename_i version rest hrb
    split at h
    · exact (Except.noConfusion h)
    · rename_i hash rest1 hrc
      simp only [Except.ok.injEq, Prod.mk.injEq] at h
      obtain ⟨-, h2⟩ := h
      subst h2
      obtain ⟨hc1, -⟩ := readChunk_ok hrc
      exact ⟨version :: hash, by rw [readByte_ok hrb, hc1]; rfl⟩

theorem wrapResult_sameShape {rem : List Nat}
    {coreT coreF : Except DecodeError (ClarityVal × List Nat)}
    (h : SameShapeV rem coreT coreF) :
    SameShape rem (wrapResult rem true coreT) (wrapResult rem false coreF) := by
  rcases h with ⟨e, h1, h2⟩ | ⟨v, w, rem', c, h1, h2, h3⟩
  · left; exact ⟨e, by simp [wrapResult, h1], by simp [wrapResult, h2]⟩
  · right
    refine ⟨.mk (some (rem.take (rem.length - rem'.length))) v, .mk none w, rem', c,
      ?_, ?_, h3⟩ <;> simp [wrapResult, h1, h2]

theorem runItems_rel (c1 c2 : List Nat → Except DecodeError (ClarityValue × List Nat))
    (hc : ∀ r, SameShape r (c1 r) (c2 r)) :
    ∀ (n : Nat) (rem : List Nat),
      SameShapeL rem (runItems c1 n rem) (runItems c2 n rem) := by
  intro n
  induction n with
  | zero => intro rem; right; exact ⟨[], [], rem, [], rfl, rfl, rfl⟩
  | succ n ih =>
    intro rem
    rcases hc rem with ⟨e, h1, h2⟩ | ⟨cv, cv2, rem1, c, h1, h2, h3⟩
    · left; exact ⟨e, by simp [runItems, h1], by simp [runItems, h2]⟩
    · rcases ih rem1 with ⟨e, g1, g2⟩ | ⟨vs, ws, rem2, c', g1, g2, g3⟩
      · left; exact ⟨e, by simp [runItems, h1, g1], by simp [runItems, h2, g2]⟩
      · right
        refine ⟨cv :: vs, cv2 :: ws, rem2, c ++ c', by simp [runItems, h1, g1],
          by simp [runItems, h2, g2], ?_⟩
        rw [h3, g3, List.append_assoc]

theorem runPairs_rel (c1 c2 : List Nat → Except DecodeError (ClarityValue × List Nat))
    (hc : ∀ r, SameShape r (c1 r) (c2 r)) :
    ∀ (n : Nat) (rem : List Nat) (acc1 acc2 : List (List Nat × ClarityValue)),
      SameShapeP rem (runPairs c1 n rem acc1) (runPairs c2 n rem acc2) := by
  intro n
  induction n with
  | zero => intro rem acc1 acc2; right; exact ⟨acc1, acc2, rem, [], rfl, rfl, rfl⟩
  | succ n ih =>
    intro rem acc1 acc2
    cases hdn : DecodeClarityName rem with
    | error e => left; exact ⟨e, by simp [runPairs, hdn], by simp [runPairs, hdn]⟩
    | ok p =>
      obtain ⟨key, rem1⟩ := p
      obtain ⟨cn, hcn⟩ := decodeClarityName_suffix hdn
      rcases hc rem1 with ⟨e, h1, h2⟩ | ⟨cv, cv2, rem2, c, h1, h2, h3⟩
      · left; exact ⟨e, by simp [runPairs, hdn, h1], by simp [runPairs, hdn, h2]⟩
      · rcases ih rem2 (tupleInsert acc1 key cv) (tupleInsert acc2 key cv2) with
          ⟨e, g1, g2⟩ | ⟨vs, ws, rem3, c3, g1, g2, g3⟩
        · left
          exact ⟨e, by simp [runPairs, hdn, h1, g1], by simp [runPairs, hdn, h2, g2]⟩
        · right
          refine ⟨vs, ws, rem3, cn ++ (c ++ c3), by simp [runPairs, hdn, h1, g1],
            by simp [runPairs, hdn, h2, g2], ?_⟩
          rw [hcn, h3, g3]
          simp [List.append_assoc]

/-- The decoder's control flow, final cursor, and errors do not depend on
`withBytes`: the two runs fail identically or consume the same prefix. -/
theorem decodeCVI_sameShape :
    ∀ (fuel : Nat) (rem : List Nat) (depth : Nat),
      SameShape rem (decodeClarityValueInternal fuel rem depth true)
        (decodeClarityValueInternal fuel rem depth false) := by
  intro fuel
  induction fuel with
  | zero => intro rem depth; left; exact ⟨.outOfFuel, rfl, rfl⟩
  | succ fuel ih =>
    intro rem depth
    by_cases hd : 16 ≤ depth
    · left
      refine ⟨.typeSignatureTooDeep depth, ?_, ?_⟩ <;>
        simp [decodeClarityValueInternal, hd]
    · cases rem with
      | nil =>
        left
        refine ⟨.eof, ?_, ?_⟩ <;>
          simp [decodeClarityValueInternal, hd, readByte, wrapResult]
      | cons header rest =>
        simp only [decodeClarityValueInternal, if_neg hd, readByte]
        apply wrapResult_sameShape
        rcases header with _|_|_|_|_|_|_|_|_|_|_|_|_|_|_|header
        · -- 0: Int
          cases hrc : readChunk 16 rest with
          | error e => left; exact ⟨e, by simp [hrc], by simp [hrc]⟩
          | ok p =>
            obtain ⟨buf, rest1⟩ := p
            obtain ⟨hsplit, -⟩ := readChunk_ok hrc
            right
            exact ⟨_, _, rest1, 0 :: buf, by simp only [hrc]; rfl, by simp only [hrc]; rfl,
              by rw [hsplit]; rfl⟩
        · -- 1: UInt
          cases hrc : readChunk 16 rest with
          | error e => left; exact ⟨e, by simp [hrc], by simp [hrc]⟩
          | ok p =>
            obtain ⟨buf, rest1⟩ := p
            obtain ⟨hsplit, -⟩ := readChunk_ok hrc
            right
            exact ⟨_, _, rest1, 1 :: buf, by simp only [hrc]; rfl, by simp only [hrc]; rfl,
              by rw [hsplit]; rfl⟩
        · -- 2: Buffer
          cases hu : readU32 rest with
          | error e => left; exact ⟨e, by simp [hu], by simp [hu]⟩
          | ok p =>
            obtain ⟨bufLen, rest1⟩ := p
            obtain ⟨bs, hbs, -⟩ := readU32_ok hu
            by_cases hsz : MaxValueSize < bufLen
            · left; exact ⟨.illegalBufferSize, by simp [hu, hsz], by simp [hu, hsz]⟩
            · cases hrc : readChunk bufLen rest1 with
              | error e => left; exact ⟨e, by simp [hu, hsz, hrc], by simp [hu, hsz, hrc]⟩
              | ok q =>
                obtain ⟨data, rest2⟩ := q
                obtain ⟨hsplit, -⟩ := readChunk_ok hrc
                right
                exact ⟨_, _, rest2, 2 :: bs ++ data,
                  by simp only [hu, if_neg hsz, hrc]; rfl,
                  by simp only [hu, if_neg hsz, hrc]; rfl, by rw [hbs, hsplit]; simp⟩
        · -- 3: BoolTrue
          right; exact ⟨_, _, rest, [3], rfl, rfl, rfl⟩
        · -- 4: BoolFalse
          right; exact ⟨_, _, rest, [4], rfl, rfl, rfl⟩
        · -- 5: StandardPrincipal
          cases hp : DecodeStandardPrincipalData rest with
          | error e => left; exact ⟨e, by simp [hp], by simp [hp]⟩
          | ok p =>
            obtain ⟨⟨version, hash⟩, rest1⟩ := p
            obtain ⟨c, hc⟩ := decodeStandardPrincipal_suffix hp
            right
            exact ⟨_, _, rest1, 5 :: c, by simp only [hp]; rfl, by simp only [hp]; rfl,
              by rw [hc]; rfl⟩
        · -- 6: ContractPrincipal
          cases hp : DecodeStandardPrincipalData rest with
          | error e => left; exact ⟨e, by simp [hp], by simp [hp]⟩
          | ok p =>
            obtain ⟨⟨version, hash⟩, rest1⟩ := p
            obtain ⟨c, hc⟩ := decodeStandardPrincipal_suffix hp
            cases hn : DecodeClarityName rest1 with
            | error e => left; exact ⟨e, by simp [hp, hn], by simp [hp, hn]⟩
            | ok q =>
              obtain ⟨name, rest2⟩ := q
              obtain ⟨cn, hcn⟩ := decodeClarityName_suffix hn
              right
              exact ⟨_, _, rest2, 6 :: c ++ cn, by simp only [hp, hn]; rfl,
                by simp only [hp, hn]; rfl, by rw [hc, hcn]; simp⟩
        · -- 7: ResponseOk
          rcases ih rest (depth + 1) with ⟨e, h1, h2⟩ | ⟨cv, cv2, rem1, c, h1, h2, h3⟩
          · left; exact ⟨e, by simp [h1], by simp [h2]⟩
          · right
            exact ⟨_, _, rem1, 7 :: c, by simp only [h1]; rfl, by simp only [h2]; rfl,
              by rw [h3]; rfl⟩
        · -- 8: ResponseErr
          rcases ih rest (depth + 1) with ⟨e, h1, h2⟩ | ⟨cv, cv2, rem1, c, h1, h2, h3⟩
          · left; exact ⟨e, by simp [h1], by simp [h2]⟩
          · right
            exact ⟨_, _, rem1, 8 :: c, by simp only [h1]; rfl, by simp only [h2]; rfl,
              by rw [h3]; rfl⟩
        · -- 9: OptionalNone
          right; exact ⟨_, _, rest, [9], rfl, rfl, rfl⟩
        · -- 10: OptionalSome
          rcases ih rest (depth + 1) with ⟨e, h1, h2⟩ | ⟨cv, cv2, rem1, c, h1, h2, h3⟩
          · left; exact ⟨e, by simp [h1], by simp [h2]⟩
          · right
            exact ⟨_, _, rem1, 10 :: c, by simp only [h1]; rfl, by simp only [h2]; rfl,
              by rw [h3]; rfl⟩
        · -- 11: List
          cases hu : readU32 rest with
          | error e => left; exact ⟨e, by simp [hu], by simp [hu]⟩
          | ok p =>
            obtain ⟨listLen, rest1⟩ := p
            obtain ⟨bs, hbs, -⟩ := readU32_ok hu
            by_cases hsz : MaxValueSize < listLen
            · left; exact ⟨.illegalListSize, by simp [hu, hsz], by simp [hu, hsz]⟩
            · have hloop := runItems_rel
                (fun r => decodeClarityValueInternal fuel r (depth + 1) true)
                (fun r => decodeClarityValueInternal fuel r (depth + 1) false)
                (fun r => ih r (depth + 1)) listLen rest1
              rcases hloop with ⟨e, h1, h2⟩ | ⟨vs, ws, rem2, c', h1, h2, h3⟩
              · left; exact ⟨e, by simp [hu, hsz, h1], by simp [hu, hsz, h2]⟩
              · right
                exact ⟨_, _, rem2, 11 :: bs ++ c',
                  by simp only [hu, if_neg hsz, h1]; rfl,
                  by simp only [hu, if_neg hsz, h2]; rfl, by rw [hbs, h3]; simp⟩
        · -- 12: Tuple
          cases hu : readU32 rest with
          | error e => left; exact ⟨e, by simp [hu], by simp [hu]⟩
          | ok p =>
            obtain ⟨tupleLen, rest1⟩ := p
            obtain ⟨bs, hbs, -⟩ := readU32_ok hu
            by_cases hsz : MaxValueSize < tupleLen
            · left; exact ⟨.illegalTupleSize, by simp [hu, hsz], by simp [hu, hsz]⟩
            · have hloop := runPairs_rel
                (fun r => decodeClarityValueInternal fuel r (depth + 1) true)
                (fun r => decodeClarityValueInternal fuel r (depth + 1) false)
                (fun r => ih r (depth + 1)) tupleLen rest1 [] []
              rcases hloop with ⟨e, h1, h2⟩ | ⟨vs, ws, rem2, c', h1, h2, h3⟩
              · left; exact ⟨e, by simp [hu, hsz, h1], by simp [hu, hsz, h2]⟩
              · right
                exact ⟨_, _, rem2, 12 :: bs ++ c',
                  by simp only [hu, if_neg hsz, h1]; rfl,
                  by simp only [hu, if_neg hsz, h2]; rfl, by rw [hbs, h3]; simp⟩
        · -- 13: StringASCII
          cases hu : readU32 rest with
          | error e => left; exact ⟨e, by simp [hu], by simp [hu]⟩
          | ok p =>
            obtain ⟨bufLen, rest1⟩ := p
            obtain ⟨bs, hbs, -⟩ := readU32_ok hu
            by_cases hsz : MaxValueSize < bufLen
            · left
              exact ⟨.illegalStringAsciiSize, by simp [hu, hsz], by simp [hu, hsz]⟩
            · cases hrc : readChunk bufLen rest1 with
              | error e => left; exact ⟨e, by simp [hu, hsz, hrc], by simp [hu, hsz, hrc]⟩
              | ok q =>
                obtain ⟨data, rest2⟩ := q
                obtain ⟨hsplit, -⟩ := readChunk_ok hrc
                right
                exact ⟨_, _, rest2, 13 :: bs ++ data,
                  by simp only [hu, if_neg hsz, hrc]; rfl,
                  by simp only [hu, if_neg hsz, hrc]; rfl, by rw [hbs, hsplit]; simp⟩
        · -- 14: StringUTF8
          cases hu : readU32 rest with
          | error e => left; exact ⟨e, by simp [hu], by simp [hu]⟩
          | ok p =>
            obtain ⟨totalLen, rest1⟩ := p
            obtain ⟨bs, hbs, -⟩ := readU32_ok hu
            by_cases hsz : MaxValueSize < totalLen
            · left
              exact ⟨.illegalStringUtf8Size, by simp [hu, hsz], by simp [hu, hsz]⟩
            · cases hrc : readChunk totalLen rest1 with
              | error e => left; exact ⟨e, by simp [hu, hsz, hrc], by simp [hu, hsz, hrc]⟩
              | ok q =>
                obtain ⟨data, rest2⟩ := q
                obtain ⟨hsplit, -⟩ := readChunk_ok hrc
                right
                exact ⟨_, _, rest2, 14 :: bs ++ data,
                  by simp only [hu, if_neg hsz, hrc]; rfl,
                  by simp only [hu, if_neg hsz, hrc]; rfl, by rw [hbs, hsplit]; simp⟩
        · -- ≥ 15: bad tag
          left; exact ⟨.badTypeTag, rfl, rfl⟩

theorem wrapResult_capture {rem : List Nat} {core : Except DecodeError (ClarityVal × List Nat)}
    {cv : ClarityValue} {rem' : List Nat}
    (h : wrapResult rem true core = .ok (cv, rem')) :
    cv.serializedBytes = some (rem.take (rem.length - rem'.length)) := by
  unfold wrapResult at h
  split at h
  · exact (Except.noConfusion h)
  · simp only [if_true] at h
    simp only [Except.ok.injEq, Prod.mk.injEq] at h
    obtain ⟨h1, h2⟩ := h
    subst h2
    rw [← h1]
    rfl

theorem decodeCVI_capture {fuel : Nat} {rem : List Nat} {depth : Nat}
    {cv : ClarityValue} {rem' : List Nat}
    (h : decodeClarityValueInternal fuel rem depth true = .ok (cv, rem')) :
    cv.serializedBytes = some (rem.take (rem.length - rem'.length)) := by
  cases fuel with
  | zero => exact (Except.noConfusion h)
  | succ fuel =>
    by_cases hd : 16 ≤ depth
    · simp [decodeClarityValueInternal, hd] at h
    · simp only [decodeClarityValueInternal, if_neg hd] at h
      exact wrapResult_capture h

/-! ## C9: byte capture -/

/-- C9: whenever a decode step with byte capture enabled succeeds, the
recorded `SerializedBytes` of the returned value is exactly the prefix of the
input consumed between entry and exit of that step (type tag plus all nested
children), and decoding the same input with capture disabled succeeds with
the same final cursor (the same leftover bytes).  This applies to every node:
each nested value is decoded by a recursive call of the same function. -/
theorem C9_byte_capture (fuel : Nat) (rem : List Nat) (depth : Nat)
    (cv : ClarityValue) (rem' : List Nat)
    (h : decodeClarityValueInternal fuel rem depth true = .ok (cv, rem')) :
    (∃ consumed, rem = consumed ++ rem' ∧ cv.serializedBytes = some consumed) ∧
    (∃ cv2, decodeClarityValueInternal fuel rem depth false = .ok (cv2, rem')) := by
  rcases decodeCVI_sameShape fuel rem depth with ⟨e, h1, h2⟩ | ⟨cva, cvb, rem1, c, h1, h2, h3⟩
  · rw [h] at h1; exact (Except.noConfusion h1)
  · rw [h] at h1
    simp only [Except.ok.injEq, Prod.mk.injEq] at h1
    obtain ⟨-, hrem⟩ := h1
    subst hrem
    have hcap := decodeCVI_capture h
    have htake : rem.take (rem.length - rem'.length) = c := by
      rw [h3]
      simp
    refine ⟨⟨c, h3, by rw [hcap, htake]⟩, ⟨cvb, h2⟩⟩

/-- C9 witness: decoding `0x03` (BoolTrue) with a trailing byte. -/
theorem C9_byte_capture_witness :
    decodeClarityValueInternal 17 [3, 7] 0 true =
      .ok (.mk (some [3]) (.boolV true), [7]) ∧
    ((∃ consumed, ([3, 7] : List Nat) = consumed ++ [7] ∧
        (ClarityValue.mk (some [3]) (.boolV true)).serializedBytes = some consumed) ∧
      (∃ cv2, decodeClarityValueInternal 17 [3, 7] 0 false = .ok (cv2, [7]))) :=
  ⟨rfl, C9_byte_capture 17 [3, 7] 0 (.mk (some [3]) (.boolV true)) [7] rfl⟩

/-! ## C10 machinery: tuple insertion -/

theorem tupleInsert_keys (acc : List (List Nat × ClarityValue)) (k : List Nat)
    (v : ClarityValue) :
    (tupleInsert acc k v).map (fun q => q.1) =
      if acc.any (fun q => q.1 == k) then acc.map (fun q => q.1)
      else acc.map (fun q => q.1) ++ [k] := by
  unfold tupleInsert
  split
  · simp only [if_pos ‹_›, List.map_map]
    apply List.map_congr_left
    intro q _
    by_cases hq : q.1 = k <;> simp [hq]
  · simp [if_neg ‹_›]

theorem tupleInsert_length (acc : List (List Nat × ClarityValue)) (k : List Nat)
    (v : ClarityValue) :
    (tupleInsert acc k v).length =
      if acc.any (fun q => q.1 == k) then acc.length else acc.length + 1 := by
  unfold tupleInsert
  split
  · simp [if_pos ‹_›]
  · simp [if_neg ‹_›]

theorem tupleLookup_insert_self (acc : List (List Nat × ClarityValue)) (k : List Nat)
    (v : ClarityValue) : tupleLookup (tupleInsert acc k v) k = some v := by
  unfold tupleInsert tupleLookup
  split
  · rename_i hany
    rw [List.find?_map]
    have hpred : (fun q : List Nat × ClarityValue => q.1 == k) ∘
        (fun q : List Nat × ClarityValue => if q.1 == k then (q.1, v) else q) =
        fun q => q.1 == k := by
      funext q
      by_cases hq : q.1 = k <;> simp [hq]
    rw [hpred]
    obtain ⟨q0, hq0mem, hq0⟩ := List.any_eq_true.mp hany
    cases hq1 : acc.find? (fun q => q.1 == k) with
    | none =>
      rw [List.find?_eq_none] at hq1
      exact absurd hq0 (by simpa using hq1 q0 hq0mem)
    | some q1 =>
      have hq1k : q1.1 = k := by simpa using List.find?_some hq1
      simp [hq1k]
  · rw [List.find?_append]
    rename_i hany
    have hnone : acc.find? (fun q => q.1 == k) = none := by
      rw [List.find?_eq_none]
      intro q hq
      by_contra hcon
      exact hany (List.any_eq_true.mpr ⟨q, hq, by simpa using hcon⟩)
    simp [hnone]

theorem tupleLookup_insert_other (acc : List (List Nat × ClarityValue))
    (k k' : List Nat) (v : ClarityValue) (hne : k' ≠ k) :
    tupleLookup (tupleInsert acc k v) k' = tupleLookup acc k' := by
  unfold tupleInsert tupleLookup
  split
  · rw [List.find?_map]
    have hpred : (fun q : List Nat × ClarityValue => q.1 == k') ∘
        (fun q : List Nat × ClarityValue => if q.1 == k then (q.1, v) else q) =
        fun q => q.1 == k' := by
      funext q
      by_cases hq : q.1 = k <;> simp [hq]
    rw [hpred]
    cases hf : acc.find? (fun q => q.1 == k') with
    | none => simp
    | some q0 =>
      have hq0 : q0.1 = k' := by simpa using List.find?_some hf
      have hq0k : q0.1 ≠ k := by rw [hq0]; exact hne
      simp [hq0k]
  · rw [List.find?_append]
    cases hf : acc.find? (fun q => q.1 == k') with
    | none =>
      have : k ≠ k' := fun h => hne h.symm
      simp [hf, this]
    | some q0 => simp [hf]

theorem foldInsert_lookup (ps : List ((List Nat × List Nat) × ClarityValue)) :
    ∀ (acc : List (List Nat × ClarityValue)) (k : List Nat),
      tupleLookup (ps.foldl (fun a p => tupleInsert a p.1.1 p.2) acc) k =
        match ps.reverse.find? (fun p => p.1.1 == k) with
        | some p => some p.2
        | none => tupleLookup acc k := by
  induction ps with
  | nil => intro acc k; rfl
  | cons p ps ih =>
    intro acc k
    have step : (p :: ps).foldl (fun a q => tupleInsert a q.1.1 q.2) acc =
        ps.foldl (fun a q => tupleInsert a q.1.1 q.2) (tupleInsert acc p.1.1 p.2) := by
      simp
    rw [step, ih]
    have hrev : (p :: ps).reverse = ps.reverse ++ [p] := by simp
    rw [hrev, List.find?_append]
    cases hf : ps.reverse.find? (fun q => q.1.1 == k) with
    | some q0 => simp
    | none =>
      simp only [Option.none_or]
      by_cases hpk : p.1.1 = k
      · subst hpk
        simp [tupleLookup_insert_self]
      · have : ¬ (p.1.1 == k) = true := by simpa using hpk
        simp only [List.find?_cons, this]
        simp [List.find?_nil, tupleLookup_insert_other acc p.1.1 k p.2
          (fun hc => hpk hc.symm)]

theorem foldInsert_length_le (ps : List ((List Nat × List Nat) × ClarityValue)) :
    ∀ acc : List (List Nat × ClarityValue),
      (ps.foldl (fun a p => tupleInsert a p.1.1 p.2) acc).length ≤
        acc.length + ps.length := by
  induction ps with
  | nil => intro acc; simp
  | cons p ps ih =>
    intro acc
    have step : (p :: ps).foldl (fun a q => tupleInsert a q.1.1 q.2) acc =
        ps.foldl (fun a q => tupleInsert a q.1.1 q.2) (tupleInsert acc p.1.1 p.2) := by
      simp
    rw [step]
    have h1 := ih (tupleInsert acc p.1.1 p.2)
    have h2 := tupleInsert_length acc p.1.1 p.2
    split at h2 <;> simp [h2] at h1 ⊢ <;> omega

theorem mem_keys_tupleInsert (acc : List (List Nat × ClarityValue)) (k k' : List Nat)
    (v : ClarityValue) (h : k' ∈ acc.map (fun q => q.1)) :
    k' ∈ (tupleInsert acc k v).map (fun q => q.1) := by
  rw [tupleInsert_keys]
  split
  · exact h
  · simp [h]

theorem self_mem_keys_tupleInsert (acc : List (List Nat × ClarityValue)) (k : List Nat)
    (v : ClarityValue) : k ∈ (tupleInsert acc k v).map (fun q => q.1) := by
  rw [tupleInsert_keys]
  split
  · rename_i hany
    obtain ⟨q0, hq0mem, hq0⟩ := List.any_eq_true.mp hany
    simp only [beq_iff_eq] at hq0
    rw [← hq0]
    exact List.mem_map.mpr ⟨q0, hq0mem, rfl⟩
  · simp

theorem foldInsert_length_lt_of_mem (ps : List ((List Nat × List Nat) × ClarityValue)) :
    ∀ (acc : List (List Nat × ClarityValue)) (k : List Nat),
      k ∈ acc.map (fun q => q.1) → k ∈ ps.map (fun p => p.1.1) →
      (ps.foldl (fun a p => tupleInsert a p.1.1 p.2) acc).length <
        acc.length + ps.length := by
  induction ps with
  | nil => intro acc k _ hmem; simp at hmem
  | cons p ps ih =>
    intro acc k hacc hmem
    have step : (p :: ps).foldl (fun a q => tupleInsert a q.1.1 q.2) acc =
        ps.foldl (fun a q => tupleInsert a q.1.1 q.2) (tupleInsert acc p.1.1 p.2) := by
      simp
    rw [step]
    by_cases hpk : p.1.1 = k
    · -- the inserted key already exists in acc: no growth at this step
      have hany : acc.any (fun q => q.1 == p.1.1) = true := by
        rw [hpk]
        obtain ⟨q0, hq0mem, hq0⟩ := List.mem_map.mp hacc
        exact List.any_eq_true.mpr ⟨q0, hq0mem, by simp [hq0]⟩
      have hlen : (tupleInsert acc p.1.1 p.2).length = acc.length := by
        rw [tupleInsert_length, if_pos hany]
      have := foldInsert_length_le ps (tupleInsert acc p.1.1 p.2)
      rw [hlen] at this
      simp only [List.length_cons]
      omega
    · have hmem' : k ∈ ps.map (fun p => p.1.1) := by
        rcases List.mem_cons.mp hmem with h | h
        · exact absurd h.symm hpk
        · exact h
      have hacc' : k ∈ (tupleInsert acc p.1.1 p.2).map (fun q => q.1) :=
        mem_keys_tupleInsert acc p.1.1 k p.2 hacc
      have := ih (tupleInsert acc p.1.1 p.2) k hacc' hmem'
      have h2 := tupleInsert_length acc p.1.1 p.2
      simp only [List.length_cons]
      split at h2 <;> omega

theorem foldInsert_length_lt_of_dup (ps : List ((List Nat × List Nat) × ClarityValue)) :
    ∀ acc : List (List Nat × ClarityValue),
      ¬ (ps.map (fun p => p.1.1)).Nodup →
      (ps.foldl (fun a p => tupleInsert a p.1.1 p.2) acc).length <
        acc.length + ps.length := by
  induction ps with
  | nil => intro acc hdup; simp at hdup
  | cons p ps ih =>
    intro acc hdup
    have step : (p :: ps).foldl (fun a q => tupleInsert a q.1.1 q.2) acc =
        ps.foldl (fun a q => tupleInsert a q.1.1 q.2) (tupleInsert acc p.1.1 p.2) := by
      simp
    rw [step]
    simp only [List.map_cons, List.nodup_cons] at hdup
    push_neg at hdup
    by_cases hmem : p.1.1 ∈ ps.map (fun p => p.1.1)
    · have hacc : p.1.1 ∈ (tupleInsert acc p.1.1 p.2).map (fun q => q.1) :=
        self_mem_keys_tupleInsert acc p.1.1 p.2
      have := foldInsert_length_lt_of_mem ps (tupleInsert acc p.1.1 p.2) p.1.1 hacc hmem
      have h2 := tupleInsert_length acc p.1.1 p.2
      simp only [List.length_cons]
      split at h2 <;> omega
    · have hdup' : ¬ (ps.map (fun p => p.1.1)).Nodup := fun hn => (hdup hmem) hn
      have := ih (tupleInsert acc p.1.1 p.2) hdup'
      have h2 := tupleInsert_length acc p.1.1 p.2
      simp only [List.length_cons]
      split at h2 <;> omega

theorem decodeClarityName_encode (name rest : List Nat)
    (hlen : name.length ≤ MaxStringLen) (hok : clarityNameOk name = true) :
    DecodeClarityName (name.length :: (name ++ rest)) = .ok (name, rest) := by
  unfold DecodeClarityName
  simp only [readByte]
  rw [if_neg (Nat.not_lt.mpr hlen)]
  rw [readChunk_exact]
  simp [ValidateClarityName, Nat.not_lt.mpr hlen, hok]

theorem runPairs_encode
    (child : List Nat → Except DecodeError (ClarityValue × List Nat))
    (ps : List ((List Nat × List Nat) × ClarityValue))
    (hname : ∀ p ∈ ps, p.1.1.length ≤ MaxStringLen ∧ clarityNameOk p.1.1 = true)
    (hval : ∀ p ∈ ps, ∀ suffix, child (p.1.2 ++ suffix) = .ok (p.2, suffix)) :
    ∀ (suffix : List Nat) (acc : List (List Nat × ClarityValue)),
      runPairs child ps.length
          ((ps.map (fun p => (p.1.1.length :: p.1.1) ++ p.1.2)).flatten ++ suffix) acc =
        .ok (ps.foldl (fun a p => tupleInsert a p.1.1 p.2) acc, suffix) := by
  induction ps with
  | nil => intro suffix acc; simp [runPairs]
  | cons p ps ih =>
    intro suffix acc
    have hn := hname p (by simp)
    have hv := hval p (by simp)
    have hinput :
        (((p :: ps).map (fun p => (p.1.1.length :: p.1.1) ++ p.1.2)).flatten ++ suffix)
          = p.1.1.length :: (p.1.1 ++
              (p.1.2 ++
                ((ps.map (fun p => (p.1.1.length :: p.1.1) ++ p.1.2)).flatten ++ suffix))) := by
      simp
    rw [hinput]
    show runPairs child (ps.length + 1) _ acc = _
    simp only [runPairs, decodeClarityName_encode p.1.1 _ hn.1 hn.2, hv,
      ih (fun q hq => hname q (by simp [hq])) (fun q hq => hval q (by simp [hq]))]
    simp

theorem decodeCVI_tuple_step (fuel : Nat) (rest : List Nat) (depth : Nat) (wb : Bool)
    (hd : ¬ 16 ≤ depth) (n : Nat) (rest1 : List Nat)
    (hu : readU32 rest = .ok (n, rest1)) (hsz : ¬ MaxValueSize < n) :
    decodeClarityValueInternal (fuel + 1) (12 :: rest) depth wb =
      wrapResult (12 :: rest) wb
        (match runPairs (fun r => decodeClarityValueInternal fuel r (depth + 1) wb)
            n rest1 [] with
         | .error e => .error e
         | .ok (entries, rest2) => .ok (.tupleV entries, rest2)) := by
  simp only [decodeClarityValueInternal, if_neg hd, readByte, hu, if_neg hsz]

/-! ## C10: duplicate tuple keys -/

/-- C10: for any tuple wire encoding built from a declared pair list in which
some ClarityName key occurs more than once (each name valid, each value a
complete child encoding, pair count within the size cap), decoding succeeds —
no duplicate-key error exists — and produces the map obtained by inserting
the pairs in order (`data[key] = val`): the resulting key count is strictly
less than the declared pair count, and each key maps to the value of its
*last* occurrence among the declared pairs. -/
theorem C10_tuple_duplicate_keys
    (ps : List ((List Nat × List Nat) × ClarityValue)) (lb : List Nat)
    (hname : ∀ p ∈ ps, p.1.1.length ≤ MaxStringLen ∧ clarityNameOk p.1.1 = true)
    (hval : ∀ p ∈ ps, ∀ suffix,
      decodeClarityValueInternal 16 (p.1.2 ++ suffix) 1 false = .ok (p.2, suffix))
    (hcount : ps.length ≤ MaxValueSize)
    (hlb : lb.length = 4) (hlbval : beNat lb = ps.length)
    (hdup : ¬ (ps.map (fun p => p.1.1)).Nodup) :
    DecodeClarityValue
        (12 :: (lb ++ (ps.map (fun p => (p.1.1.length :: p.1.1) ++ p.1.2)).flatten))
        false =
      .ok (.mk none (.tupleV (ps.foldl (fun a p => tupleInsert a p.1.1 p.2) [])), []) ∧
    (ps.foldl (fun a p => tupleInsert a p.1.1 p.2) []).length < ps.length ∧
    (∀ k : List Nat,
      tupleLookup (ps.foldl (fun a p => tupleInsert a p.1.1 p.2) []) k =
        match ps.reverse.find? (fun p => p.1.1 == k) with
        | some p => some p.2
        | none => none) := by
  refine ⟨?_, ?_, ?_⟩
  · unfold DecodeClarityValue
    show decodeClarityValueInternal (16 + 1) _ 0 false = _
    have hd : ¬ (16 ≤ (0 : Nat)) := by omega
    have hrc : readChunk 4
        (lb ++ (ps.map (fun p => (p.1.1.length :: p.1.1) ++ p.1.2)).flatten) =
        .ok (lb, (ps.map (fun p => (p.1.1.length :: p.1.1) ++ p.1.2)).flatten) := by
      rw [← hlb]
      exact readChunk_exact lb _
    have hu : readU32
        (lb ++ (ps.map (fun p => (p.1.1.length :: p.1.1) ++ p.1.2)).flatten) =
        .ok (ps.length, (ps.map (fun p => (p.1.1.length :: p.1.1) ++ p.1.2)).flatten) := by
      simp only [readU32, hrc, hlbval]
    rw [decodeCVI_tuple_step 16 _ 0 false hd ps.length _ hu (Nat.not_lt.mpr hcount)]
    have hflat :
        (ps.map (fun p => (p.1.1.length :: p.1.1) ++ p.1.2)).flatten =
        (ps.map (fun p => (p.1.1.length :: p.1.1) ++ p.1.2)).flatten ++ [] := by simp
    have hloop := runPairs_encode
      (fun r => decodeClarityValueInternal 16 r (0 + 1) false) ps hname
      (fun p hp suffix => hval p hp suffix) [] []
    rw [hflat]
    simp only [hloop]
    rfl
  · have := foldInsert_length_lt_of_dup ps [] hdup
    simpa using this
  · intro k
    rw [foldInsert_lookup ps [] k]
    cases hf : ps.reverse.find? (fun p => p.1.1 == k) with
    | some q => simp
    | none => simp [tupleLookup]

/-- C10 witness: two pairs with the same key `"a"`, values `true` then
`false`; the decoded tuple has a single entry holding the later value. -/
theorem C10_tuple_duplicate_keys_witness :
    DecodeClarityValue [12, 0, 0, 0, 2, 1, 97, 3, 1, 97, 4] false =
      .ok (.mk none (.tupleV [([97], .mk none (.boolV false))]), []) := by
  have h := C10_tuple_duplicate_keys
    [(([97], [3]), .mk none (.boolV true)), (([97], [4]), .mk none (.boolV false))]
    [0, 0, 0, 2]
    (by
      intro p hp
      simp only [List.mem_cons, List.not_mem_nil, or_false] at hp
      rcases hp with h | h <;> (subst h; exact ⟨by decide, by decide⟩))
    (by
      intro p hp suffix
      simp only [List.mem_cons, List.not_mem_nil, or_false] at hp
      rcases hp with h | h
      · subst h; rfl
      · subst h; rfl)
    (by simp [MaxValueSize])
    (by decide) (by decide)
    (by decide)
  exact h.1

/-! ## C8 machinery: lexicographic key order and keyed lookup under permutation -/

theorem lexLe_total : ∀ a b : List Nat, lexLe a b = true ∨ lexLe b a = true := by
  intro a
  induction a with
  | nil => intro b; left; rfl
  | cons x xs ih =>
    intro b
    cases b with
    | nil => right; rfl
    | cons y ys =>
      by_cases h1 : x < y
      · left; simp [lexLe, h1]
      · by_cases h2 : y < x
        · right; simp [lexLe, h2]
        · have hxy : x = y := by omega
          subst hxy
          rcases ih ys with h | h
          · left; simp [lexLe, h]
          · right; simp [lexLe, h]

theorem lexLe_trans :
    ∀ a b c : List Nat, lexLe a b = true → lexLe b c = true → lexLe a c = true := by
  intro a
  induction a with
  | nil => intro b c _ _; rfl
  | cons x xs ih =>
    intro b c hab hbc
    cases b with
    | nil => simp [lexLe] at hab
    | cons y ys =>
      cases c with
      | nil => simp [lexLe] at hbc
      | cons z zs =>
        rcases Nat.lt_trichotomy x y with hxy | hxy | hxy
        · rcases Nat.lt_trichotomy y z with hyz | hyz | hyz
          · simp only [lexLe]; rw [if_pos (by omega : x < z)]
          · subst hyz; simp only [lexLe]; rw [if_pos hxy]
          · exfalso
            simp only [lexLe] at hbc
            rw [if_neg (by omega : ¬ y < z), if_pos hyz] at hbc
            simp at hbc
        · subst hxy
          rcases Nat.lt_trichotomy x z with hxz | hxz | hxz
          · simp only [lexLe]; rw [if_pos hxz]
          · subst hxz
            simp only [lexLe, lt_self_iff_false, if_false] at hab hbc ⊢
            exact ih ys zs hab hbc
          · exfalso
            simp only [lexLe] at hbc
            rw [if_neg (by omega : ¬ x < z), if_pos hxz] at hbc
            simp at hbc
        · exfalso
          simp only [lexLe] at hab
          rw [if_neg (by omega : ¬ x < y), if_pos hxy] at hab
          simp at hab

theorem lexLe_antisymm :
    ∀ a b : List Nat, lexLe a b = true → lexLe b a = true → a = b := by
  intro a
  induction a with
  | nil =>
    intro b _ hba
    cases b with
    | nil => rfl
    | cons y ys => simp [lexLe] at hba
  | cons x xs ih =>
    intro b hab hba
    cases b with
    | nil => simp [lexLe] at hab
    | cons y ys =>
      simp only [lexLe] at hab hba
      by_cases h1 : x < y
      · simp [h1, Nat.lt_asymm h1] at hba
      · by_cases h2 : y < x
        · simp [h1, h2] at hab
        · have hxy : x = y := by omega
          subst hxy
          simp only [Nat.lt_irrefl, if_false] at hab hba
          rw [ih ys hab hba]

/-- With unique keys, the first entry found for a key is invariant under
permutation of the entries. -/
theorem find?_key_perm (e1 e2 : List (List Nat × ClarityValue))
    (hperm : e1.Perm e2) (hnodup : (e1.map (fun q => q.1)).Nodup) (k : List Nat) :
    e1.find? (fun q => q.1 == k) = e2.find? (fun q => q.1 == k) := by
  have hfilter : (e1.filter (fun q => q.1 == k)).Perm
      (e2.filter (fun q => q.1 == k)) := hperm.filter _
  have hlen : (e1.filter (fun q => q.1 == k)).length ≤ 1 := by
    cases hf : e1.filter (fun q => q.1 == k) with
    | nil => simp
    | cons a l =>
      cases l with
      | nil => simp
      | cons b l2 =>
        exfalso
        have hsub : (a :: b :: l2).map (fun q => q.1) |>.Sublist
            (e1.map (fun q => q.1)) := by
          rw [← hf]
          exact (List.filter_sublist e1).map _
        have hnd := hnodup.sublist hsub
        have ha : a.1 = k := by
          have := List.mem_filter.mp (hf ▸ List.mem_cons_self a (b :: l2))
          simpa using this.2
        have hb : b.1 = k := by
          have := List.mem_filter.mp
            (hf ▸ List.mem_cons_of_mem a (List.mem_cons_self b l2))
          simpa using this.2
        simp only [List.map_cons, List.nodup_cons] at hnd
        exact hnd.1 (by simp [ha, hb])
  have hfeq : e1.filter (fun q => q.1 == k) = e2.filter (fun q => q.1 == k) := by
    cases hf : e1.filter (fun q => q.1 == k) with
    | nil =>
      have := hfilter
      rw [hf] at this
      exact (List.Perm.nil_eq this).symm |>.symm ▸ rfl
    | cons a l =>
      cases l with
      | nil =>
        have := hfilter
        rw [hf] at this
        exact (List.perm_singleton.mp this.symm).symm
      | cons b l2 =>
        rw [hf] at hlen
        simp at hlen
  rw [← List.filter_head?, ← List.filter_head?, hfeq]

/-- The two tuple renderings use the same sorted key list. -/
theorem tuple_keys_sorted_eq (e1 e2 : List (List Nat × ClarityValue))
    (hperm : e1.Perm e2) :
    (e1.map (fun q => q.1)).mergeSort lexLe = (e2.map (fun q => q.1)).mergeSort lexLe := by
  have htrans : ∀ a b c : List Nat, lexLe a b → lexLe b c → lexLe a c :=
    fun a b c hab hbc => lexLe_trans a b c hab hbc
  have htotal : ∀ a b : List Nat, (lexLe a b || lexLe b a) = true :=
    fun a b => by rcases lexLe_total a b with h | h <;> simp [h]
  have hs1 := List.sorted_mergeSort htrans htotal (e1.map (fun q => q.1))
  have hs2 := List.sorted_mergeSort htrans htotal (e2.map (fun q => q.1))
  have hp : ((e1.map (fun q => q.1)).mergeSort lexLe).Perm
      ((e2.map (fun q => q.1)).mergeSort lexLe) :=
    (List.mergeSort_perm _ _).trans ((hperm.map _).trans
      (List.mergeSort_perm (e2.map (fun q => q.1)) lexLe).symm)
  exact @List.eq_of_perm_of_sorted _ (fun a b => lexLe a b = true)
    ⟨lexLe_antisymm⟩ _ _ hp hs1 hs2

/-! ## C8: tuple rendering is insertion-order invariant with sorted keys -/

/-- C8: two tuple values holding the same finite set of (key, value) pairs —
i.e. entry lists that are permutations of each other, with unique keys —
have identical `ReprString` and identical `TypeSignature`, and the keys are
rendered in lexicographic (byte-wise) sorted order. -/
theorem C8_tuple_render_invariance (sha : List Nat → List Nat)
    (e1 e2 : List (List Nat × ClarityValue))
    (hperm : e1.Perm e2) (hnodup : (e1.map (fun q => q.1)).Nodup) :
    ReprString sha (.tupleV e1) = ReprString sha (.tupleV e2) ∧
    TypeSignature (.tupleV e1) = TypeSignature (.tupleV e2) ∧
    List.Sorted (fun a b => lexLe a b = true)
      ((e1.map (fun q => q.1)).mergeSort lexLe) := by
  have hkeys := tuple_keys_sorted_eq e1 e2 hperm
  have hfind := fun k => find?_key_perm e1 e2 hperm hnodup k
  refine ⟨?_, ?_, ?_⟩
  · simp only [ReprString]
    rw [List.attach_map_val e1 (fun q => (q.1, ReprCV sha q.2)),
        List.attach_map_val e2 (fun q => (q.1, ReprCV sha q.2)), hkeys]
    congr 1
    congr 1
    congr 1
    apply List.map_congr_left
    intro k _
    rw [List.find?_map, List.find?_map]
    have hcomp : ∀ e : List (List Nat × ClarityValue),
        List.find? ((fun q : List Nat × List Nat => q.1 == k) ∘
          (fun q : List Nat × ClarityValue => (q.1, ReprCV sha q.2))) e =
        List.find? (fun q => q.1 == k) e := by
      intro e; rfl
    rw [hcomp, hcomp, hfind k]
  · simp only [TypeSignature]
    rw [List.attach_map_val e1 (fun q => (q.1, TypeSigCV q.2)),
        List.attach_map_val e2 (fun q => (q.1, TypeSigCV q.2)), hkeys]
    congr 1
    congr 1
    congr 1
    apply List.map_congr_left
    intro k _
    rw [List.find?_map, List.find?_map]
    have hcomp : ∀ e : List (List Nat × ClarityValue),
        List.find? ((fun q : List Nat × List Nat => q.1 == k) ∘
          (fun q : List Nat × ClarityValue => (q.1, TypeSigCV q.2))) e =
        List.find? (fun q => q.1 == k) e := by
      intro e; rfl
    rw [hcomp, hcomp, hfind k]
  · exact List.sorted_mergeSort
      (fun a b c hab hbc => lexLe_trans a b c hab hbc)
      (fun a b => by rcases lexLe_total a b with h | h <;> simp [h]) _

/-- C8 witness: the two-entry tuples `{b ↦ true, a ↦ 1}` and
`{a ↦ 1, b ↦ true}`. -/
theorem C8_tuple_render_invariance_witness :
    ([([98], ClarityValue.mk none (.boolV true)), ([97], ClarityValue.mk none (.intV 1))] :
        List (List Nat × ClarityValue)).Perm
      [([97], ClarityValue.mk none (.intV 1)), ([98], ClarityValue.mk none (.boolV true))] ∧
    (([([98], ClarityValue.mk none (.boolV true)),
        ([97], ClarityValue.mk none (.intV 1))].map (fun q => q.1)).Nodup) ∧
    ReprString (fun _ => List.replicate 32 0)
        (.tupleV [([98], ClarityValue.mk none (.boolV true)),
                  ([97], ClarityValue.mk none (.intV 1))]) =
      ReprString (fun _ => List.replicate 32 0)
        (.tupleV [([97], ClarityValue.mk none (.intV 1)),
                  ([98], ClarityValue.mk none (.boolV true))]) := by
  have hperm : ([([98], ClarityValue.mk none (.boolV true)),
      ([97], ClarityValue.mk none (.intV 1))] :
      List (List Nat × ClarityValue)).Perm
      [([97], ClarityValue.mk none (.intV 1)), ([98], ClarityValue.mk none (.boolV true))] :=
    List.Perm.swap _ _ _
  refine ⟨hperm, by decide, ?_⟩
  exact (C8_tuple_render_invariance (fun _ => List.replicate 32 0) _ _ hperm (by decide)).1

/-! ## C32 codec arithmetic -/

theorem ofDigits_c32EncGroups :
    ∀ (bs : List Nat) (c cb : Nat), (∀ x ∈ bs, x < 256) → c < 2 ^ cb → cb ≤ 4 →
      Nat.ofDigits 32 (c32EncGroups bs c cb) = c + 2 ^ cb * Nat.ofDigits 256 bs := by
  intro bs
  induction bs with
  | nil =>
    intro c cb _ hc _
    by_cases h : 0 < cb
    · simp [c32EncGroups, h, Nat.ofDigits]
    · have hcb0 : cb = 0 := by omega
      subst hcb0
      have hc0 : c = 0 := by omega
      subst hc0
      simp [c32EncGroups, Nat.ofDigits]
  | cons b bs ih =>
    intro c cb hb hc hcb
    have hblt : b < 256 := hb b (by simp)
    have hbs : ∀ x ∈ bs, x < 256 := fun x hx => hb x (by simp [hx])
    interval_cases cb
    · -- carryBits = 0 → new carryBits 3
      simp only [c32EncGroups]
      norm_num
      rw [Nat.ofDigits_cons,
        ih (b / 32) 3 hbs (by omega) (by omega)]
      rw [Nat.ofDigits_cons]
      have hc0 : c = 0 := by omega
      omega
    · -- carryBits = 1 → new carryBits 4
      simp only [c32EncGroups]
      norm_num
      rw [Nat.ofDigits_cons,
        ih (b / 16) 4 hbs (by omega) (by omega)]
      rw [Nat.ofDigits_cons]
      omega
    · -- carryBits = 2 → emit two groups, new carryBits 0
      simp only [c32EncGroups]
      norm_num
      rw [Nat.ofDigits_cons, Nat.ofDigits_cons,
        ih (b / 8 / 32) 0 hbs (by omega) (by omega)]
      rw [Nat.ofDigits_cons]
      omega
    · -- carryBits = 3 → emit two groups, new carryBits 1
      simp only [c32EncGroups]
      norm_num
      rw [Nat.ofDigits_cons, Nat.ofDigits_cons,
        ih (b / 4 / 32) 1 hbs (by omega) (by omega)]
      rw [Nat.ofDigits_cons]
      omega
    · -- carryBits = 4 → emit two groups, new carryBits 2
      simp only [c32EncGroups]
      norm_num
      rw [Nat.ofDigits_cons, Nat.ofDigits_cons,
        ih (b / 2 / 32) 2 hbs (by omega) (by omega)]
      rw [Nat.ofDigits_cons]
      omega

theorem c32EncGroups_lt :
    ∀ (bs : List Nat) (c cb : Nat), (∀ x ∈ bs, x < 256) → c < 2 ^ cb → cb ≤ 4 →
      ∀ d ∈ c32EncGroups bs c cb, d < 32 := by
  intro bs
  induction bs with
  | nil =>
    intro c cb _ hc hcb d hd
    by_cases h : 0 < cb
    · simp [c32EncGroups, h] at hd
      have hle : (2 : Nat) ^ cb ≤ 2 ^ 4 := Nat.pow_le_pow_right (by omega) hcb
      have h32 : c < 32 := by
        have : (2 : Nat) ^ 4 = 16 := by norm_num
        omega
      omega
    · simp [c32EncGroups, h] at hd
  | cons b bs ih =>
    intro c cb hb hc hcb d hd
    have hblt : b < 256 := hb b (by simp)
    have hbs : ∀ x ∈ bs, x < 256 := fun x hx => hb x (by simp [hx])
    interval_cases cb <;>
      (simp only [c32EncGroups] at hd
       norm_num at hd) <;>
      (rcases hd with hd | hd
       · omega
       · first
         | (rcases hd with hd | hd
            · omega
            · exact ih _ _ hbs (by omega) (by omega) d hd)
         | exact ih _ _ hbs (by omega) (by omega) d hd)

theorem ofDigits_c32DecGroups :
    ∀ (ds : List Nat) (c cb : Nat), (∀ d ∈ ds, d < 32) → c < 2 ^ cb → cb ≤ 7 →
      Nat.ofDigits 256 (c32DecGroups ds c cb) = c + 2 ^ cb * Nat.ofDigits 32 ds := by
  intro ds
  induction ds with
  | nil =>
    intro c cb _ hc hcb
    by_cases h : 0 < cb
    · have : c % 256 = c := Nat.mod_eq_of_lt (by
        calc c < 2 ^ cb := hc
          _ ≤ 2 ^ 7 := Nat.pow_le_pow_right (by omega) hcb
          _ ≤ 256 := by norm_num)
      simp [c32DecGroups, h, Nat.ofDigits, this]
    · have hcb0 : cb = 0 := by omega
      subst hcb0
      have hc0 : c = 0 := by omega
      subst hc0
      simp [c32DecGroups, Nat.ofDigits]
  | cons d ds ih =>
    intro c cb hd hc hcb
    have hdlt : d < 32 := hd d (by simp)
    have hds : ∀ x ∈ ds, x < 32 := fun x hx => hd x (by simp [hx])
    interval_cases cb <;>
      simp only [c32DecGroups] <;> norm_num <;>
      first
      | (rw [Nat.ofDigits_cons, ih _ _ hds (by omega) (by omega), Nat.ofDigits_cons]
         omega)
      | (rw [ih _ _ hds (by omega) (by omega), Nat.ofDigits_cons]
         omega)

theorem c32DecGroups_lt :
    ∀ (ds : List Nat) (c cb : Nat), ∀ x ∈ c32DecGroups ds c cb, x < 256 := by
  intro ds
  induction ds with
  | nil =>
    intro c cb x hx
    by_cases h : 0 < cb <;> simp [c32DecGroups, h] at hx
    · omega
  | cons d ds ih =>
    intro c cb x hx
    simp only [c32DecGroups] at hx
    split at hx
    · rcases List.mem_cons.mp hx with h | h
      · omega
      · exact ih _ _ x h
    · exact ih _ _ x hx

theorem ofDigits_replicate_zero (b n : Nat) :
    Nat.ofDigits b (List.replicate n 0) = 0 := by
  induction n with
  | zero => simp [Nat.ofDigits]
  | succ n ih => simp [List.replicate_succ, Nat.ofDigits_cons, ih]

theorem ofDigits_trimTrailZeros (b : Nat) (l : List Nat) :
    Nat.ofDigits b (trimTrailZeros l) = Nat.ofDigits b l := by
  unfold trimTrailZeros
  induction l using List.reverseRecOn with
  | nil => simp
  | append_singleton xs a ih =>
    by_cases ha : a = 0
    · subst ha
      rw [List.reverse_append]
      simp only [List.reverse_cons, List.reverse_nil, List.nil_append,
        List.dropWhile_cons]
      norm_num
      rw [ih, Nat.ofDigits_append]
      simp [Nat.ofDigits]
    · rw [List.reverse_append]
      simp only [List.reverse_cons, List.reverse_nil, List.nil_append,
        List.dropWhile_cons]
      have : (a == 0) = false := by simpa using ha
      simp [this]

theorem mem_trimTrailZeros {l : List Nat} {x : Nat} (hx : x ∈ trimTrailZeros l) :
    x ∈ l := by
  unfold trimTrailZeros at hx
  rw [List.mem_reverse] at hx
  have := (List.dropWhile_sublist (fun y => y == 0)).mem hx
  exact List.mem_reverse.mp this

theorem getLast_trimTrailZeros (l : List Nat) (_h : trimTrailZeros l ≠ []) :
    ∀ hh, (trimTrailZeros l).getLast hh ≠ 0 := by
  intro hh
  unfold trimTrailZeros at hh ⊢
  have hrev : l.reverse.dropWhile (fun y => y == 0) ≠ [] := by
    intro hc
    rw [hc] at hh
    simp at hh
  have hhead := List.head_dropWhile_not (fun y => y == 0) l.reverse hrev
  rw [List.getLast_reverse]
  simpa using hhead

/-- The trailing-zero trim of a digit list (entries `< b`) is exactly the
canonical base-`b` digit expansion of its value. -/
theorem trimTrailZeros_eq_digits (b : Nat) (hb : 1 < b) (l : List Nat)
    (hl : ∀ x ∈ l, x < b) :
    trimTrailZeros l = Nat.digits b (Nat.ofDigits b l) := by
  rw [← ofDigits_trimTrailZeros b l]
  rw [Nat.digits_ofDigits b hb (trimTrailZeros l)
    (fun x hx => hl x (mem_trimTrailZeros hx))
    (fun hh => getLast_trimTrailZeros l hh hh)]

theorem mapC32Digits_map (l : List Nat) (hl : ∀ d ∈ l, d < 32) :
    mapC32Digits (l.map c32Char) = .ok l := by
  induction l with
  | nil => rfl
  | cons d ds ih =>
    have hd : d < 32 := hl d (by simp)
    have hlook : c32Lookup (c32Char d) = some d := by
      interval_cases d <;> rfl
    simp only [List.map_cons, mapC32Digits, hlook,
      ih (fun x hx => hl x (by simp [hx]))]

theorem c32Char_lt_128 (d : Nat) (hd : d < 32) : c32Char d < 128 := by
  interval_cases d <;> norm_num [c32Char, c32Chars]

theorem c32Char_ne_zero_char (d : Nat) (hd : d < 32) (hne : d ≠ 0) :
    c32Char d ≠ 48 := by
  interval_cases d <;> simp_all [c32Char, c32Chars]

theorem leadCount_decomp (v : Nat) (l : List Nat) :
    l = List.replicate (leadCount v l) v ++ l.dropWhile (fun x => x == v) := by
  have h1 : l.takeWhile (fun x => x == v) = List.replicate (leadCount v l) v := by
    have h2 : ∀ b ∈ l.takeWhile (fun x => x == v), b = v := by
      intro b hb
      simpa using List.mem_takeWhile_imp hb
    have h3 := List.eq_replicate_of_mem h2
    simpa [leadCount] using h3
  conv_lhs => rw [← List.takeWhile_append_dropWhile (fun x => x == v) l]
  rw [h1]

theorem takeWhile_zero_reverse_eq_nil (l : List Nat) (hne : l ≠ [])
    (hlast : l.getLast hne ≠ 0) :
    l.reverse.takeWhile (fun x => x == 0) = [] := by
  cases hrev : l.reverse with
  | nil => exact absurd (by simpa using hrev) hne
  | cons a as =>
    have hrne : l.reverse ≠ [] := by simp [hrev]
    have ha : a = l.getLast hne := by
      have h1 : l.reverse.head hrne = a := by simp [hrev]
      rw [List.head_reverse] at h1
      exact h1.symm
    have hfalse : (a == 0) = false := by
      rw [ha]
      simpa using hlast
    simp [List.takeWhile_cons, hfalse]

theorem all_zero_of_value_zero (bs : List Nat)
    (h : Nat.ofDigits 256 bs.reverse = 0) : ∀ x ∈ bs, x = 0 := by
  intro x hx
  exact Nat.digits_zero_of_eq_zero (by norm_num) h x (List.mem_reverse.mpr hx)

/-- The big-endian base-256 digit string of a byte sequence's value is the
byte sequence with its leading zero bytes removed. -/
theorem digits_reverse_eq_dropWhile (bs : List Nat) (hb : ∀ x ∈ bs, x < 256) :
    (Nat.digits 256 (Nat.ofDigits 256 bs.reverse)).reverse =
      bs.dropWhile (fun x => x == 0) := by
  by_cases hN0 : Nat.ofDigits 256 bs.reverse = 0
  · rw [hN0]
    have h1 : bs.dropWhile (fun x => x == 0) = [] :=
      List.dropWhile_eq_nil_iff.mpr (fun x hx => by
        simpa using all_zero_of_value_zero bs hN0 x hx)
    rw [h1]
    simp
  · set t := bs.dropWhile (fun x => x == 0) with ht
    have htne : t ≠ [] := by
      intro hc
      have hall : ∀ x ∈ bs, x = 0 := fun x hx =>
        eq_of_beq (List.dropWhile_eq_nil_iff.mp (ht ▸ hc) x hx)
      apply hN0
      have hrepl : bs = List.replicate bs.length 0 := List.eq_replicate_of_mem hall
      rw [hrepl, List.reverse_replicate]
      exact ofDigits_replicate_zero 256 bs.length
    have hdecomp := leadCount_decomp 0 bs
    have hNval : Nat.ofDigits 256 t.reverse = Nat.ofDigits 256 bs.reverse := by
      conv_rhs => rw [hdecomp]
      rw [List.reverse_append, List.reverse_replicate, Nat.ofDigits_append,
        ofDigits_replicate_zero]
      ring
    have hhead : t.head htne ≠ 0 := by
      have hh := List.head_dropWhile_not (fun x => x == 0) bs
        (by rw [← ht] at *; exact htne)
      simpa [← ht] using hh
    have hdig : Nat.digits 256 (Nat.ofDigits 256 t.reverse) = t.reverse := by
      apply Nat.digits_ofDigits 256 (by norm_num)
      · intro x hx
        have hxt : x ∈ t := List.mem_reverse.mp hx
        have hxbs : x ∈ bs := (List.dropWhile_sublist _).mem (ht ▸ hxt)
        exact hb x hxbs
      · intro hh
        rw [List.getLast_reverse]
        exact hhead
    rw [← hNval, hdig]
    simp

/-- Core C32 round trip on the byte level. -/
theorem decodeC32Bytes_encodeC32 (bs : List Nat) (hb : ∀ x ∈ bs, x < 256) :
    DecodeC32Bytes (EncodeC32 bs) = .ok bs := by
  by_cases hnil : bs = []
  · subst hnil; rfl
  · have hbrev : ∀ x ∈ bs.reverse, x < 256 := fun x hx => hb x (List.mem_reverse.mp hx)
    have hval := ofDigits_c32EncGroups bs.reverse 0 0 hbrev (by norm_num) (by norm_num)
    have hlt := c32EncGroups_lt bs.reverse 0 0 hbrev (by norm_num) (by norm_num)
    have htrim : trimTrailZeros (c32EncGroups bs.reverse 0 0) =
        Nat.digits 32 (Nat.ofDigits 256 bs.reverse) := by
      rw [trimTrailZeros_eq_digits 32 (by norm_num) _ hlt, hval]
      norm_num
    have hENC : EncodeC32 bs =
        ((Nat.digits 32 (Nat.ofDigits 256 bs.reverse) ++
          List.replicate (leadCount 0 bs) 0).reverse).map c32Char := by
      simp only [EncodeC32]
      rw [if_neg hnil, htrim]
    set N := Nat.ofDigits 256 bs.reverse with hN
    set lz := leadCount 0 bs with hlz
    set X := Nat.digits 32 N ++ List.replicate lz 0 with hX
    have hX32 : ∀ d ∈ X, d < 32 := by
      intro d hd
      rcases List.mem_append.mp hd with h | h
      · exact Nat.digits_lt_base (by norm_num) h
      · have := List.eq_of_mem_replicate h
        omega
    have hNzero_all : N = 0 → ∀ x ∈ bs, x = 0 := fun h0 => all_zero_of_value_zero bs h0
    have hXne : X ≠ [] := by
      intro hc
      rw [hX] at hc
      have h1 := List.append_eq_nil.mp hc
      have hN0 : N = 0 := by
        have := h1.1
        rwa [Nat.digits_eq_nil_iff_eq_zero] at this
      have hlz0 : lz = 0 := by
        have := h1.2
        simpa using this
      have hall := hNzero_all hN0
      have htk : bs.takeWhile (fun x => x == 0) = bs :=
        List.takeWhile_eq_self_iff.mpr (fun x hx => by simpa using hall x hx)
      have hlen : lz = bs.length := by
        rw [hlz]
        unfold leadCount
        rw [htk]
      have : bs.length = 0 := by omega
      exact hnil (List.length_eq_zero.mp this)
    rw [hENC]
    have hmapne : (X.reverse).map c32Char ≠ [] := by
      simp only [ne_eq, List.map_eq_nil_iff, List.reverse_eq_nil_iff]
      exact hXne
    simp only [DecodeC32Bytes]
    rw [if_neg hmapne]
    have hrevrev : (((X.reverse).map c32Char).reverse) = X.map c32Char := by
      rw [List.map_reverse, List.reverse_reverse]
    rw [hrevrev, mapC32Digits_map X hX32]
    show Except.ok ((trimTrailZeros (c32DecGroups X 0 0) ++
        List.replicate (trailZeroCount X) 0).reverse) = Except.ok bs
    have hdecval : Nat.ofDigits 256 (c32DecGroups X 0 0) = N := by
      rw [ofDigits_c32DecGroups X 0 0 hX32 (by norm_num) (by norm_num)]
      rw [hX, Nat.ofDigits_append, Nat.ofDigits_digits, ofDigits_replicate_zero]
      ring
    have htrim2 : trimTrailZeros (c32DecGroups X 0 0) = Nat.digits 256 N := by
      rw [trimTrailZeros_eq_digits 256 (by norm_num) _ (c32DecGroups_lt X 0 0), hdecval]
    have htzc : trailZeroCount X = lz := by
      unfold trailZeroCount
      rw [hX, List.reverse_append, List.reverse_replicate]
      rw [List.takeWhile_append]
      rw [if_pos (by
        rw [List.takeWhile_eq_self_iff.mpr (fun x hx => by
          simpa using List.eq_of_mem_replicate hx)])]
      by_cases hN0 : N = 0
      · rw [hN0]
        simp
      · rw [takeWhile_zero_reverse_eq_nil (Nat.digits 32 N)
          (Nat.digits_ne_nil_iff_ne_zero.mpr hN0)
          (Nat.getLast_digit_ne_zero 32 hN0)]
        simp
    rw [htrim2, htzc]
    have hfinal : (Nat.digits 256 N).reverse = bs.dropWhile (fun x => x == 0) := by
      rw [hN]
      exact digits_reverse_eq_dropWhile bs hb
    rw [List.reverse_append, List.reverse_replicate, hfinal]
    rw [hlz]
    rw [← leadCount_decomp 0 bs]

theorem c32Char_lt_128_all (d : Nat) : c32Char d < 128 := by
  by_cases hd : d < 32
  · exact c32Char_lt_128 d hd
  · unfold c32Char
    rw [List.getD_eq_default]
    · norm_num
    · simp only [c32Chars, List.length_cons, List.length_nil]
      omega

theorem encodeC32_all_ascii (bs : List Nat) :
    (EncodeC32 bs).all (fun c => c < 128) = true := by
  simp only [EncodeC32]
  split
  · rfl
  · simp only [List.all_eq_true, List.mem_map, decide_eq_true_eq]
    rintro c ⟨d, _, rfl⟩
    exact c32Char_lt_128_all d

/-- `DecodeC32` succeeds on every encoder output without hitting the ASCII
filter, and inverts `EncodeC32`. -/
theorem decodeC32_encodeC32 (bs : List Nat) (hb : ∀ x ∈ bs, x < 256) :
    DecodeC32 (EncodeC32 bs) = .ok bs := by
  simp only [DecodeC32, encodeC32_all_ascii bs, if_true]
  exact decodeC32Bytes_encodeC32 bs hb

theorem c32Lookup_normStep (c c' : Nat) (h : c32NormStep c c') :
    c32Lookup c' = c32Lookup c := by
  rcases h with rfl | ⟨h1, h2, rfl⟩ | ⟨h1, rfl⟩ | ⟨h1, rfl⟩
  · rfl
  · interval_cases c <;> rfl
  · rcases h1 with rfl | rfl <;> rfl
  · rcases h1 with rfl | rfl | rfl | rfl <;> rfl

theorem c32NormStep_lt_128 (c c' : Nat) (h : c32NormStep c c') (hc : c < 128) :
    c' < 128 := by
  rcases h with rfl | ⟨h1, h2, rfl⟩ | ⟨h1, rfl⟩ | ⟨h1, rfl⟩ <;> omega

theorem mapC32Digits_congr (l l' ds : List Nat)
    (hrel : List.Forall₂ (fun c c' => c32Lookup c' = c32Lookup c) l l')
    (hok : mapC32Digits l = .ok ds) : mapC32Digits l' = .ok ds := by
  induction hrel generalizing ds with
  | nil => exact hok
  | cons h1 h2 ih =>
    rename_i a b as bs
    simp only [mapC32Digits] at hok ⊢
    rw [h1]
    cases hl : c32Lookup a with
    | none =>
      simp only [hl] at hok
      cases hok
    | some d =>
      simp only [hl] at hok ⊢
      cases hm : mapC32Digits as with
      | error e =>
        simp only [hm] at hok
        cases hok
      | ok ds0 =>
        simp only [hm] at hok
        simp only [ih ds0 hm]
        exact hok

theorem forall₂_normStep_all (l l' : List Nat)
    (hrel : List.Forall₂ c32NormStep l l')
    (h : l.all (fun c => c < 128) = true) : l'.all (fun c => c < 128) = true := by
  induction hrel with
  | nil => rfl
  | cons h1 h2 ih =>
    simp only [List.all_cons, Bool.and_eq_true, decide_eq_true_eq] at h ⊢
    exact ⟨c32NormStep_lt_128 _ _ h1 h.1, ih h.2⟩

theorem decodeC32Bytes_congr (l l' r : List Nat)
    (hok : DecodeC32Bytes l = .ok r)
    (hrel : List.Forall₂ (fun c c' => c32Lookup c' = c32Lookup c) l l') :
    DecodeC32Bytes l' = .ok r := by
  simp only [DecodeC32Bytes] at hok ⊢
  by_cases hl : l = []
  · subst hl
    cases hrel
    simpa using hok
  · have hl' : l' ≠ [] := by
      intro hc
      subst hc
      cases hrel
      exact hl rfl
    rw [if_neg hl] at hok
    rw [if_neg hl']
    have hrev : List.Forall₂ (fun c c' => c32Lookup c' = c32Lookup c)
        l.reverse l'.reverse := List.rel_reverse hrel
    cases hm : mapC32Digits l.reverse with
    | error e =>
      simp only [hm] at hok
      cases hok
    | ok ds =>
      simp only [hm] at hok
      simp only [mapC32Digits_congr _ _ ds hrev hm]
      exact hok

/-- Replacing characters of a successfully decoding C32 string by their
spec-sanctioned normalizations leaves the decode result unchanged. -/
theorem decodeC32_normStep (l l' r : List Nat) (hdec : DecodeC32 l = .ok r)
    (hrel : List.Forall₂ c32NormStep l l') : DecodeC32 l' = .ok r := by
  simp only [DecodeC32] at hdec ⊢
  split at hdec
  · rename_i hall
    rw [if_pos (by simpa using forall₂_normStep_all l l' hrel (by simpa using hall))]
    exact decodeC32Bytes_congr l l' r hdec
      (List.Forall₂.imp (fun a b h => c32Lookup_normStep a b h) hrel)
  · exact absurd hdec (by simp)

/-- C5: for every byte sequence `bs`, `DecodeC32 (EncodeC32 bs)` succeeds and
returns exactly `bs`; moreover the decode of a valid C32 string is unchanged
when any characters are replaced by their lowercase forms, `O`/`o` by `0`, or
`I`/`i`/`L`/`l` by `1` (`c32NormStep` pointwise). -/
theorem C5_c32_roundtrip_normalization
    (bs : List Nat) (hb : ∀ x ∈ bs, x < 256)
    (l l' r : List Nat) (hdec : DecodeC32 l = .ok r)
    (hrel : List.Forall₂ c32NormStep l l') :
    DecodeC32 (EncodeC32 bs) = .ok bs ∧ DecodeC32 l' = .ok r :=
  ⟨decodeC32_encodeC32 bs hb, decodeC32_normStep l l' r hdec hrel⟩

theorem C5_c32_roundtrip_normalization_witness :
    (∀ x ∈ [1, 0, 255], x < 256) ∧
    DecodeC32 [79] = .ok [0] ∧
    List.Forall₂ c32NormStep [79] [48] ∧
    (DecodeC32 (EncodeC32 [1, 0, 255]) = .ok [1, 0, 255] ∧
      DecodeC32 [48] = .ok [0]) :=
  ⟨by decide, by rfl,
   List.Forall₂.cons (Or.inr (Or.inr (Or.inl ⟨Or.inl rfl, rfl⟩))) List.Forall₂.nil,
   C5_c32_roundtrip_normalization [1, 0, 255] (by decide) [79] [48] [0] (by rfl)
     (List.Forall₂.cons (Or.inr (Or.inr (Or.inl ⟨Or.inl rfl, rfl⟩))) List.Forall₂.nil)⟩

theorem encodeC32_ne_nil (bs : List Nat) (hb : ∀ x ∈ bs, x < 256)
    (hne : bs ≠ []) : EncodeC32 bs ≠ [] := by
  intro hc
  have h := decodeC32Bytes_encodeC32 bs hb
  rw [hc] at h
  have h2 : (Except.ok [] : Except C32Err (List Nat)) = Except.ok bs := by
    rw [← h]
    rfl
  injection h2 with h3
  exact hne h3.symm

theorem decodeC32_single (v : Nat) (hv : v < 32) :
    DecodeC32 [c32Char v] = .ok [v] := by
  interval_cases v <;> rfl

/-- C3: for every version `< 32` and every payload, `C32CheckDecode` applied
to the `C32CheckEncodePrefixed` output with its single leading prefix
character removed returns exactly the version and payload (for any checksum
primitive `sha` producing at least 4 bytes, each below 256). -/
theorem C3_c32check_roundtrip (sha : List Nat → List Nat)
    (hshaLen : ∀ m, 4 ≤ (sha m).length)
    (hshaB : ∀ m, ∀ b ∈ sha m, b < 256)
    (version : Nat) (hv : version < 32)
    (data : List Nat) (hd : ∀ x ∈ data, x < 256)
    (prefixByte : Nat) (enc : List Nat)
    (henc : C32CheckEncodePrefixed sha version data prefixByte = .ok enc) :
    C32CheckDecode sha enc.tail = .ok (version, data) := by
  have henc2 : enc = prefixByte :: c32Char version ::
      EncodeC32 (data ++ (sha (sha (version :: data))).take 4) := by
    simp only [C32CheckEncodePrefixed] at henc
    rw [if_neg (by omega)] at henc
    injection henc with h
    exact h.symm
  subst henc2
  have hcs4 : ((sha (sha (version :: data))).take 4).length = 4 := by
    rw [List.length_take]
    have := hshaLen (sha (version :: data))
    omega
  have hBbytes : ∀ x ∈ (data ++ (sha (sha (version :: data))).take 4), x < 256 := by
    intro x hx
    rcases List.mem_append.mp hx with h | h
    · exact hd x h
    · exact hshaB _ x (List.mem_of_mem_take h)
  have hBne : (data ++ (sha (sha (version :: data))).take 4) ≠ [] := by
    intro hcon
    have h2 := List.append_eq_nil.mp hcon
    rw [h2.2] at hcs4
    simp at hcs4
  have hEne : EncodeC32 (data ++ (sha (sha (version :: data))).take 4) ≠ [] :=
    encodeC32_ne_nil _ hBbytes hBne
  have hdecB := decodeC32_encodeC32 _ hBbytes
  have hBlen : ((data ++ (sha (sha (version :: data))).take 4)).length = data.length + 4 := by
    rw [List.length_append, hcs4]
  have hsub : ((data ++ (sha (sha (version :: data))).take 4)).length - 4 = data.length := by
    rw [hBlen]
    omega
  have htake : ((data ++ (sha (sha (version :: data))).take 4)).take (((data ++ (sha (sha (version :: data))).take 4)).length - 4) = data := by
    rw [hsub]
    exact List.take_left' rfl
  have hdrop : ((data ++ (sha (sha (version :: data))).take 4)).drop (((data ++ (sha (sha (version :: data))).take 4)).length - 4) = (sha (sha (version :: data))).take 4 := by
    rw [hsub]
    exact List.drop_left' rfl
  have hall : (c32Char version :: EncodeC32 (data ++ (sha (sha (version :: data))).take 4)).all
      (fun c => c < 128) = true := by
    simp only [List.all_cons, Bool.and_eq_true, decide_eq_true_eq]
    exact ⟨c32Char_lt_128 version hv, by simpa using encodeC32_all_ascii (data ++ (sha (sha (version :: data))).take 4)⟩
  simp only [List.tail_cons]
  simp only [C32CheckDecode]
  rw [if_neg (not_not_intro hall)]
  rw [if_neg (by
    simp only [List.length_cons, Nat.not_lt]
    have := List.length_pos.mpr hEne
    omega)]
  simp only [List.headD_cons, List.tail_cons]
  rw [hdecB]
  simp only []
  rw [if_neg (by rw [hBlen]; omega)]
  rw [decodeC32_single version hv]
  simp only [List.headD_cons]
  rw [htake, hdrop]
  rw [if_pos rfl]

theorem C3_c32check_roundtrip_witness :
    (∀ m : List Nat, 4 ≤ ((fun _ => List.replicate 32 0) m : List Nat).length) ∧
    (∀ m : List Nat, ∀ b ∈ ((fun _ => List.replicate 32 0) m : List Nat), b < 256) ∧
    22 < 32 ∧ (∀ x ∈ ([1, 2] : List Nat), x < 256) ∧
    C32CheckEncodePrefixed (fun _ => List.replicate 32 0) 22 [1, 2] 83 =
      .ok [83, 80, 49, 48, 56, 48, 48, 48, 48, 48, 48] ∧
    C32CheckDecode (fun _ => List.replicate 32 0)
      ([83, 80, 49, 48, 56, 48, 48, 48, 48, 48, 48] : List Nat).tail =
      .ok (22, [1, 2]) :=
  ⟨fun m => by simp, fun m b hb => by simp at hb; omega, by omega, by decide,
   by rfl,
   C3_c32check_roundtrip (fun _ => List.replicate 32 0) (fun m => by simp)
     (fun m b hb => by simp at hb; omega) 22 (by omega) [1, 2] (by decide) 83
     [83, 80, 49, 48, 56, 48, 48, 48, 48, 48, 48] (by rfl)⟩

theorem b58MulAdd_length (ds : List Nat) (c : Nat) :
    (b58MulAddDigits ds c).1.length = ds.length := by
  induction ds generalizing c with
  | nil => rfl
  | cons d ds ih => simp [b58MulAddDigits, ih]

theorem b58MulAdd_lt (ds : List Nat) (c : Nat) :
    ∀ x ∈ (b58MulAddDigits ds c).1, x < 58 := by
  induction ds generalizing c with
  | nil => simp [b58MulAddDigits]
  | cons d ds ih =>
    intro x hx
    simp only [b58MulAddDigits, List.mem_cons] at hx
    rcases hx with rfl | hx
    · exact Nat.mod_lt _ (by norm_num)
    · exact ih _ x hx

theorem b58MulAdd_val (ds : List Nat) (c : Nat) :
    Nat.ofDigits 58 (b58MulAddDigits ds c).1 +
      58 ^ ds.length * (b58MulAddDigits ds c).2 =
    c + 256 * Nat.ofDigits 58 ds := by
  induction ds generalizing c with
  | nil => simp [b58MulAddDigits]
  | cons d ds ih =>
    have ih2 := ih ((c + 256 * d) / 58)
    simp only [b58MulAddDigits, Nat.ofDigits_cons, List.length_cons, pow_succ]
    have hmd := Nat.mod_add_div (c + 256 * d) 58
    push_cast at ih2
    ring_nf
    ring_nf at ih2
    omega

theorem b58CarryDigits_eq (carry : Nat) : ∀ fuel, carry ≤ fuel →
    b58CarryDigits fuel carry = Nat.digits 58 carry := by
  induction carry using Nat.strong_induction_on with
  | _ carry ih =>
    intro fuel hf
    cases fuel with
    | zero =>
      have hc0 : carry = 0 := by omega
      subst hc0
      simp [b58CarryDigits]
    | succ fuel =>
      by_cases hc : carry = 0
      · subst hc
        simp [b58CarryDigits]
      · have hdiv : carry / 58 < carry := Nat.div_lt_self (by omega) (by norm_num)
        have h2 : carry / 58 ≤ fuel := by omega
        simp only [b58CarryDigits, if_neg hc]
        rw [ih (carry / 58) hdiv fuel h2]
        conv_rhs => rw [Nat.digits_def' (by norm_num) (by omega)]

theorem b58Step_digits (v b : Nat) :
    b58Step (Nat.digits 58 v) b = Nat.digits 58 (b + 256 * v) := by
  by_cases hv : v = 0
  · subst hv
    simp only [Nat.digits_zero, b58Step, b58MulAddDigits, List.nil_append, mul_zero, add_zero]
    exact b58CarryDigits_eq b b (le_refl b)
  · have hds : Nat.digits 58 v ≠ [] := Nat.digits_ne_nil_iff_ne_zero.mpr hv
    have hval := b58MulAdd_val (Nat.digits 58 v) b
    rw [Nat.ofDigits_digits] at hval
    have hlen1 : 1 ≤ (Nat.digits 58 v).length := List.length_pos.mpr hds
    have hr2 : (b58MulAddDigits (Nat.digits 58 v) b).2 ≠ 0 := by
      intro h0
      rw [h0, mul_zero, add_zero] at hval
      have hlt : Nat.ofDigits 58 (b58MulAddDigits (Nat.digits 58 v) b).1 <
          58 ^ (Nat.digits 58 v).length := by
        rw [← b58MulAdd_length (Nat.digits 58 v) b]
        exact Nat.ofDigits_lt_base_pow_length (by norm_num)
          (b58MulAdd_lt (Nat.digits 58 v) b)
      have hge : 58 ^ (Nat.digits 58 v).length ≤ 58 * v :=
        Nat.base_pow_length_digits_le 58 v (by norm_num) hv
      omega
    have hcd : b58CarryDigits (b58MulAddDigits (Nat.digits 58 v) b).2
        (b58MulAddDigits (Nat.digits 58 v) b).2 =
        Nat.digits 58 (b58MulAddDigits (Nat.digits 58 v) b).2 :=
      b58CarryDigits_eq _ _ (le_refl _)
    have hdne : Nat.digits 58 (b58MulAddDigits (Nat.digits 58 v) b).2 ≠ [] :=
      Nat.digits_ne_nil_iff_ne_zero.mpr hr2
    have hform : b58Step (Nat.digits 58 v) b =
        (b58MulAddDigits (Nat.digits 58 v) b).1 ++
          Nat.digits 58 (b58MulAddDigits (Nat.digits 58 v) b).2 := by
      simp only [b58Step]
      rw [hcd]
    rw [hform]
    have happne : (b58MulAddDigits (Nat.digits 58 v) b).1 ++
        Nat.digits 58 (b58MulAddDigits (Nat.digits 58 v) b).2 ≠ [] := by
      simp [hdne]
    have hvalapp : Nat.ofDigits 58
        ((b58MulAddDigits (Nat.digits 58 v) b).1 ++
          Nat.digits 58 (b58MulAddDigits (Nat.digits 58 v) b).2) = b + 256 * v := by
      rw [Nat.ofDigits_append, Nat.ofDigits_digits, b58MulAdd_length]
      exact hval
    have hdig := Nat.digits_ofDigits 58 (by norm_num)
      ((b58MulAddDigits (Nat.digits 58 v) b).1 ++
        Nat.digits 58 (b58MulAddDigits (Nat.digits 58 v) b).2)
      (by
        intro x hx
        rcases List.mem_append.mp hx with h | h
        · exact b58MulAdd_lt _ _ x h
        · exact Nat.digits_lt_base (by norm_num) h)
      (by
        intro h
        rw [List.getLast_append]
        rw [dif_neg (by simpa using hdne)]
        exact Nat.getLast_digit_ne_zero 58 hr2)
    rw [hvalapp] at hdig
    exact hdig.symm

theorem foldl_b58Step (data : List Nat) :
    data.foldl b58Step [] = Nat.digits 58 (Nat.ofDigits 256 data.reverse) := by
  induction data using List.reverseRecOn with
  | nil => simp
  | append_singleton data b ih =>
    rw [List.foldl_append, List.foldl_cons, List.foldl_nil, ih]
    rw [b58Step_digits]
    rw [List.reverse_append]
    simp only [List.reverse_singleton, List.singleton_append, Nat.ofDigits_cons]

theorem b58Lookup_char (d : Nat) (hd : d < 58) : b58Lookup (b58Char d) = some d := by
  interval_cases d <;> rfl

theorem b58Char_ne_49 (d : Nat) (h0 : d ≠ 0) (hd : d < 58) : b58Char d ≠ 49 := by
  interval_cases d
  · exact absurd rfl h0
  all_goals decide

theorem mapB58Digits_append (l1 l2 d1 d2 : List Nat)
    (h1 : mapB58Digits l1 = .ok d1) (h2 : mapB58Digits l2 = .ok d2) :
    mapB58Digits (l1 ++ l2) = .ok (d1 ++ d2) := by
  induction l1 generalizing d1 with
  | nil =>
    simp only [mapB58Digits] at h1
    injection h1 with h1
    subst h1
    simpa using h2
  | cons c cs ih =>
    simp only [mapB58Digits, List.cons_append] at h1 ⊢
    cases hl : b58Lookup c with
    | none =>
      rw [hl] at h1
      cases h1
    | some d =>
      rw [hl] at h1
      simp only at h1 ⊢
      cases hm : mapB58Digits cs with
      | error e =>
        rw [hm] at h1
        cases h1
      | ok ds0 =>
        rw [hm] at h1
        simp only at h1
        injection h1 with h1
        simp only [List.append_eq]
        rw [ih ds0 hm]
        simp only
        rw [← h1]
        simp

theorem mapB58Digits_map (ds : List Nat) (h : ∀ d ∈ ds, d < 58) :
    mapB58Digits (ds.map b58Char) = .ok ds := by
  induction ds with
  | nil => rfl
  | cons d ds ih =>
    simp only [List.map_cons, mapB58Digits]
    rw [b58Lookup_char d (h d (List.mem_cons_self d ds))]
    rw [ih (fun x hx => h x (List.mem_cons_of_mem d hx))]

theorem mapB58Digits_replicate (k : Nat) :
    mapB58Digits (List.replicate k 49) = .ok (List.replicate k 0) := by
  induction k with
  | zero => rfl
  | succ k ih =>
    simp only [List.replicate_succ, mapB58Digits]
    rw [show b58Lookup 49 = some 0 from rfl, ih]

theorem b58DecMulAdd_length (buf : List Nat) (c : Nat) :
    (b58DecMulAdd buf c).length = buf.length := by
  induction buf generalizing c with
  | nil => rfl
  | cons b bs ih => simp [b58DecMulAdd, ih]

theorem b58DecMulAdd_lt (buf : List Nat) (c : Nat) :
    ∀ x ∈ b58DecMulAdd buf c, x < 256 := by
  induction buf generalizing c with
  | nil => simp [b58DecMulAdd]
  | cons b bs ih =>
    intro x hx
    simp only [b58DecMulAdd, List.mem_cons] at hx
    rcases hx with rfl | hx
    · exact Nat.mod_lt _ (by norm_num)
    · exact ih _ x hx

theorem add_mul_mod_mul_eq (a A M : Nat) (ha : a < 256) (hM : 0 < M) :
    (a + 256 * A) % (256 * M) = a + 256 * (A % M) := by
  conv_lhs => rw [← Nat.div_add_mod A M]
  rw [show a + 256 * (M * (A / M) + A % M) =
    a + 256 * (A % M) + 256 * M * (A / M) from by ring]
  rw [Nat.add_mul_mod_self_left]
  have hx : A % M < M := Nat.mod_lt A hM
  rw [Nat.mod_eq_of_lt (by omega)]

theorem b58DecMulAdd_val (buf : List Nat) (c : Nat) :
    Nat.ofDigits 256 (b58DecMulAdd buf c) =
      (c + 58 * Nat.ofDigits 256 buf) % 256 ^ buf.length := by
  induction buf generalizing c with
  | nil => simp [b58DecMulAdd, Nat.mod_one]
  | cons b bs ih =>
    simp only [b58DecMulAdd, Nat.ofDigits_cons, List.length_cons, pow_succ]
    rw [ih ((c + 58 * b) / 256)]
    have hpow : 0 < 256 ^ bs.length := Nat.pos_pow_of_pos bs.length (by norm_num)
    rw [show (256:ℕ) ^ bs.length * 256 = 256 * 256 ^ bs.length from by ring]
    rw [← add_mul_mod_mul_eq ((c + 58 * b) % 256)
      ((c + 58 * b) / 256 + 58 * Nat.ofDigits 256 bs) (256 ^ bs.length)
      (Nat.mod_lt _ (by norm_num)) hpow]
    congr 1
    have hmd := Nat.mod_add_div (c + 58 * b) 256
    ring_nf
    omega

theorem b58DecFold_length (ds : List Nat) (buf : List Nat) :
    (ds.foldl b58DecMulAdd buf).length = buf.length := by
  induction ds generalizing buf with
  | nil => rfl
  | cons d ds ih =>
    rw [List.foldl_cons, ih, b58DecMulAdd_length]

theorem b58DecFold_lt (ds : List Nat) (buf : List Nat)
    (hbuf : ∀ x ∈ buf, x < 256) : ∀ x ∈ ds.foldl b58DecMulAdd buf, x < 256 := by
  induction ds generalizing buf with
  | nil => exact hbuf
  | cons d ds ih =>
    rw [List.foldl_cons]
    exact ih _ (b58DecMulAdd_lt buf d)

theorem b58DecFold_val (ds : List Nat) (buf : List Nat)
    (hbuf : ∀ x ∈ buf, x < 256) :
    Nat.ofDigits 256 (ds.foldl b58DecMulAdd buf) =
      (Nat.ofDigits 58 ds.reverse + 58 ^ ds.length * Nat.ofDigits 256 buf) %
        256 ^ buf.length := by
  induction ds generalizing buf with
  | nil =>
    simp only [List.foldl_nil, List.reverse_nil, Nat.ofDigits_nil, List.length_nil,
      pow_zero, one_mul, zero_add]
    exact (Nat.mod_eq_of_lt (Nat.ofDigits_lt_base_pow_length (by norm_num) hbuf)).symm
  | cons d ds ih =>
    rw [List.foldl_cons, ih _ (b58DecMulAdd_lt buf d), b58DecMulAdd_length,
      b58DecMulAdd_val]
    have hmodeq : Nat.ofDigits 58 ds.reverse +
        58 ^ ds.length * ((d + 58 * Nat.ofDigits 256 buf) % 256 ^ buf.length) ≡
        Nat.ofDigits 58 ds.reverse +
        58 ^ ds.length * (d + 58 * Nat.ofDigits 256 buf)
        [MOD 256 ^ buf.length] :=
      Nat.ModEq.add_left _ (Nat.ModEq.mul_left _ (Nat.mod_modEq _ _))
    rw [hmodeq]
    congr 1
    rw [List.reverse_cons, Nat.ofDigits_append]
    simp only [List.length_reverse, List.length_cons, Nat.ofDigits_singleton, pow_succ]
    ring

theorem b58_pow_small (r : Nat) (hr : r < 15) : 58 ^ r ≤ 256 ^ (1 + r * 11 / 15) := by
  interval_cases r <;> decide

theorem b58_pow_bound (L : Nat) : 58 ^ L ≤ 256 ^ (1 + L * 11 / 15) := by
  obtain ⟨q, r, hr, hL⟩ : ∃ q r, r < 15 ∧ L = 15 * q + r :=
    ⟨L / 15, L % 15, Nat.mod_lt L (by norm_num), (Nat.div_add_mod L 15).symm⟩
  subst hL
  have hdiv : (15 * q + r) * 11 / 15 = 11 * q + r * 11 / 15 := by
    rw [show (15 * q + r) * 11 = 15 * (11 * q) + r * 11 from by ring]
    exact Nat.mul_add_div (by norm_num) (11 * q) (r * 11)
  rw [hdiv]
  rw [show 1 + (11 * q + r * 11 / 15) = 11 * q + (1 + r * 11 / 15) from by ring]
  rw [pow_add, pow_add, pow_mul, pow_mul]
  exact Nat.mul_le_mul (Nat.pow_le_pow_left (by decide) q) (b58_pow_small r hr)

theorem takeWhile49_map_eq_nil (n : Nat) (hn : n ≠ 0) :
    (((Nat.digits 58 n).reverse).map b58Char).takeWhile (fun x => x == 49) = [] := by
  have hne : (Nat.digits 58 n).reverse ≠ [] := by
    simp [Nat.digits_ne_nil_iff_ne_zero.mpr hn]
  obtain ⟨a, as, ha⟩ := List.exists_cons_of_ne_nil hne
  have hmem : a ∈ Nat.digits 58 n := by
    have : a ∈ (Nat.digits 58 n).reverse := by rw [ha]; exact List.mem_cons_self a as
    exact List.mem_reverse.mp this
  have ha58 : a < 58 := Nat.digits_lt_base (by norm_num) hmem
  have hane : a ≠ 0 := by
    have hdne : Nat.digits 58 n ≠ [] := Nat.digits_ne_nil_iff_ne_zero.mpr hn
    have h1 : (Nat.digits 58 n).reverse.head hne = a := by simp [ha]
    rw [List.head_reverse] at h1
    rw [← h1]
    exact Nat.getLast_digit_ne_zero 58 hn
  rw [ha, List.map_cons, List.takeWhile_cons]
  have hfalse : (b58Char a == 49) = false := by
    simpa using b58Char_ne_49 a hane ha58
  rw [hfalse]
  simp

/-- Core base58 round trip. -/
theorem decodeBase58_encodeBase58 (data : List Nat) (hd : ∀ x ∈ data, x < 256) :
    DecodeBase58 (EncodeBase58 data) = .ok data := by
  by_cases hnil : data = []
  · subst hnil; rfl
  · have hENC : EncodeBase58 data =
        List.replicate (leadCount 0 data) 49 ++ (Nat.digits 58 (Nat.ofDigits 256 data.reverse)).reverse.map b58Char := by
      simp only [EncodeBase58]
      rw [if_neg hnil, foldl_b58Step]
    have hD58 : ∀ d ∈ (Nat.digits 58 (Nat.ofDigits 256 data.reverse)).reverse, d < 58 := by
      intro d hdm
      exact Nat.digits_lt_base (by norm_num) (List.mem_reverse.mp hdm)
    have hINne : List.replicate (leadCount 0 data) 49 ++ (Nat.digits 58 (Nat.ofDigits 256 data.reverse)).reverse.map b58Char ≠ [] := by
      intro hc
      have h1 := List.append_eq_nil.mp hc
      have hN0 : Nat.ofDigits 256 data.reverse = 0 := by
        have h2 := h1.2
        simp only [List.map_eq_nil_iff, List.reverse_eq_nil_iff,
          Nat.digits_eq_nil_iff_eq_zero] at h2
        exact h2
      have hall := all_zero_of_value_zero data hN0
      have htk : data.takeWhile (fun x => x == 0) = data :=
        List.takeWhile_eq_self_iff.mpr (fun x hx => by simpa using hall x hx)
      have hlen : leadCount 0 data = data.length := by
        unfold leadCount
        rw [htk]
      have h3 := h1.1
      simp only [List.replicate_eq_nil_iff] at h3
      rw [h3] at hlen
      exact hnil (List.length_eq_zero.mp hlen.symm)
    have hlz49 : leadCount 49
        (List.replicate (leadCount 0 data) 49 ++ (Nat.digits 58 (Nat.ofDigits 256 data.reverse)).reverse.map b58Char) =
        leadCount 0 data := by
      unfold leadCount
      rw [List.takeWhile_append]
      rw [if_pos (by
        rw [List.takeWhile_eq_self_iff.mpr (fun x hx => by
          simpa using List.eq_of_mem_replicate hx)])]
      by_cases hN0 : Nat.ofDigits 256 data.reverse = 0
      · rw [hN0]
        simp
      · rw [takeWhile49_map_eq_nil _ hN0]
        simp
    have hmap : mapB58Digits
        (List.replicate (leadCount 0 data) 49 ++ (Nat.digits 58 (Nat.ofDigits 256 data.reverse)).reverse.map b58Char) =
        .ok (List.replicate (leadCount 0 data) 0 ++ (Nat.digits 58 (Nat.ofDigits 256 data.reverse)).reverse) :=
      mapB58Digits_append _ _ _ _ (mapB58Digits_replicate (leadCount 0 data))
        (mapB58Digits_map _ hD58)
    have hdsval : Nat.ofDigits 58
        (List.replicate (leadCount 0 data) 0 ++ (Nat.digits 58 (Nat.ofDigits 256 data.reverse)).reverse).reverse = Nat.ofDigits 256 data.reverse := by
      rw [List.reverse_append, List.reverse_reverse, List.reverse_replicate,
        Nat.ofDigits_append, Nat.ofDigits_digits, ofDigits_replicate_zero]
      ring
    rw [hENC]
    simp only [DecodeBase58]
    rw [if_neg hINne]
    rw [hmap]
    show Except.ok (List.replicate (leadCount 49
        (List.replicate (leadCount 0 data) 49 ++ (Nat.digits 58 (Nat.ofDigits 256 data.reverse)).reverse.map b58Char)) 0 ++
      ((List.replicate (leadCount 0 data) 0 ++ (Nat.digits 58 (Nat.ofDigits 256 data.reverse)).reverse).foldl b58DecMulAdd
        (List.replicate (1 + (List.replicate (leadCount 0 data) 49 ++
          (Nat.digits 58 (Nat.ofDigits 256 data.reverse)).reverse.map b58Char).length * 11 / 15) 0)).reverse.dropWhile
        (fun x => x == 0)) = Except.ok data
    have hINlen : (List.replicate (leadCount 0 data) 49 ++ (Nat.digits 58 (Nat.ofDigits 256 data.reverse)).reverse.map b58Char).length =
        leadCount 0 data + (Nat.digits 58 (Nat.ofDigits 256 data.reverse)).length := by
      simp [List.length_append, List.length_replicate, List.length_map]
    have hNlt : Nat.ofDigits 256 data.reverse < 256 ^ (1 + (List.replicate (leadCount 0 data) 49 ++
        (Nat.digits 58 (Nat.ofDigits 256 data.reverse)).reverse.map b58Char).length * 11 / 15) := by
      rw [hINlen]
      have h1 : Nat.ofDigits 256 data.reverse < 58 ^ (Nat.digits 58 (Nat.ofDigits 256 data.reverse)).length :=
        Nat.lt_base_pow_length_digits (by norm_num)
      have h2 := b58_pow_bound (Nat.digits 58 (Nat.ofDigits 256 data.reverse)).length
      have h3 : 256 ^ (1 + (Nat.digits 58 (Nat.ofDigits 256 data.reverse)).length * 11 / 15) ≤
          256 ^ (1 + (leadCount 0 data + (Nat.digits 58 (Nat.ofDigits 256 data.reverse)).length) * 11 / 15) := by
        apply Nat.pow_le_pow_right (by norm_num)
        have h4 : (Nat.digits 58 (Nat.ofDigits 256 data.reverse)).length * 11 ≤
            (leadCount 0 data + (Nat.digits 58 (Nat.ofDigits 256 data.reverse)).length) * 11 :=
          Nat.mul_le_mul_right 11 (Nat.le_add_left _ _)
        have h5 := Nat.div_le_div_right (c := 15) h4
        omega
      omega
    have hbuflt : ∀ x ∈ (List.replicate (leadCount 0 data) 0 ++ (Nat.digits 58 (Nat.ofDigits 256 data.reverse)).reverse).foldl
        b58DecMulAdd (List.replicate (1 + (List.replicate (leadCount 0 data) 49 ++
          (Nat.digits 58 (Nat.ofDigits 256 data.reverse)).reverse.map b58Char).length * 11 / 15) 0), x < 256 :=
      b58DecFold_lt _ _ (fun x hx => by
        rw [List.eq_of_mem_replicate hx]
        norm_num)
    have hbufval : Nat.ofDigits 256 ((List.replicate (leadCount 0 data) 0 ++ (Nat.digits 58 (Nat.ofDigits 256 data.reverse)).reverse).foldl
        b58DecMulAdd (List.replicate (1 + (List.replicate (leadCount 0 data) 49 ++
          (Nat.digits 58 (Nat.ofDigits 256 data.reverse)).reverse.map b58Char).length * 11 / 15) 0)) = Nat.ofDigits 256 data.reverse := by
      rw [b58DecFold_val _ _ (fun x hx => by
        rw [List.eq_of_mem_replicate hx]
        norm_num)]
      rw [hdsval, ofDigits_replicate_zero, List.length_replicate]
      rw [mul_zero, add_zero]
      exact Nat.mod_eq_of_lt hNlt
    have hskip : ((List.replicate (leadCount 0 data) 0 ++ (Nat.digits 58 (Nat.ofDigits 256 data.reverse)).reverse).foldl
        b58DecMulAdd (List.replicate (1 + (List.replicate (leadCount 0 data) 49 ++
          (Nat.digits 58 (Nat.ofDigits 256 data.reverse)).reverse.map b58Char).length * 11 / 15) 0)).reverse.dropWhile
        (fun x => x == 0) = (Nat.digits 256 (Nat.ofDigits 256 data.reverse)).reverse := by
      have h1 : ((List.replicate (leadCount 0 data) 0 ++ (Nat.digits 58 (Nat.ofDigits 256 data.reverse)).reverse).foldl
          b58DecMulAdd (List.replicate (1 + (List.replicate (leadCount 0 data) 49 ++
            (Nat.digits 58 (Nat.ofDigits 256 data.reverse)).reverse.map b58Char).length * 11 / 15) 0)).reverse.dropWhile
          (fun x => x == 0) = (trimTrailZeros ((List.replicate (leadCount 0 data) 0 ++
            (Nat.digits 58 (Nat.ofDigits 256 data.reverse)).reverse).foldl b58DecMulAdd (List.replicate (1 +
            (List.replicate (leadCount 0 data) 49 ++
            (Nat.digits 58 (Nat.ofDigits 256 data.reverse)).reverse.map b58Char).length * 11 / 15) 0))).reverse := by
        simp [trimTrailZeros]
      rw [h1, trimTrailZeros_eq_digits 256 (by norm_num) _ hbuflt, hbufval]
    rw [hlz49, hskip]
    rw [digits_reverse_eq_dropWhile data hd]
    rw [← leadCount_decomp 0 data]

/-- Each leading zero byte of the input yields exactly one leading `'1'`
character of the base58 encoding. -/
theorem leadCount49_encodeBase58 (data : List Nat) :
    leadCount 49 (EncodeBase58 data) = leadCount 0 data := by
  by_cases hnil : data = []
  · subst hnil; rfl
  · have hENC : EncodeBase58 data =
        List.replicate (leadCount 0 data) 49 ++ (Nat.digits 58 (Nat.ofDigits 256 data.reverse)).reverse.map b58Char := by
      simp only [EncodeBase58]
      rw [if_neg hnil, foldl_b58Step]
    rw [hENC]
    unfold leadCount
    rw [List.takeWhile_append]
    rw [if_pos (by
      rw [List.takeWhile_eq_self_iff.mpr (fun x hx => by
        simpa using List.eq_of_mem_replicate hx)])]
    by_cases hN0 : Nat.ofDigits 256 data.reverse = 0
    · rw [hN0]
      simp
    · rw [takeWhile49_map_eq_nil _ hN0]
      simp

/-- C4: for every byte sequence, decoding the base58 encoding succeeds and
returns exactly the input, and each leading zero byte corresponds to exactly
one leading `'1'` character of the encoding. -/
theorem C4_base58_roundtrip (data : List Nat) (hd : ∀ x ∈ data, x < 256) :
    DecodeBase58 (EncodeBase58 data) = .ok data ∧
    leadCount 49 (EncodeBase58 data) = leadCount 0 data :=
  ⟨decodeBase58_encodeBase58 data hd, leadCount49_encodeBase58 data⟩

theorem C4_base58_roundtrip_witness :
    (∀ x ∈ ([0, 0, 7, 0] : List Nat), x < 256) ∧
    (DecodeBase58 (EncodeBase58 [0, 0, 7, 0]) = .ok [0, 0, 7, 0] ∧
      leadCount 49 (EncodeBase58 [0, 0, 7, 0]) = leadCount 0 [0, 0, 7, 0]) :=
  ⟨by decide, C4_base58_roundtrip [0, 0, 7, 0] (by decide)⟩

/-! ## C1: nesting depth of `optional some` wrappers -/

/-- C1 counterexample: the claim asserts that 16 nested `optional some`
wrappers (16 bytes `0x0a`) around the leaf `0x03` decode successfully, but
the decoder (`depth >= 16` checked on entry, children decoded at `depth+1`)
rejects the leaf, which sits at depth 16, with the depth-exceeded error. -/
theorem C1_nesting_sixteen_fails :
    DecodeClarityValue (List.replicate 16 10 ++ [3]) false =
      .error (.typeSignatureTooDeep 16) := by
  rfl

/-- C1 (amended): 17 nested `optional some` wrappers fail with the
depth-exceeded error, and so do 16 (the 16th wrapper's child is at depth 16);
the deepest input that decodes successfully has 15 wrappers around the leaf. -/
theorem C1_nesting_depth_bound :
    DecodeClarityValue (List.replicate 17 10 ++ [3]) false =
      .error (.typeSignatureTooDeep 16) ∧
    DecodeClarityValue (List.replicate 16 10 ++ [3]) false =
      .error (.typeSignatureTooDeep 16) ∧
    (∃ v, DecodeClarityValue (List.replicate 15 10 ++ [3]) false = .ok (v, [])) := by
  refine ⟨rfl, rfl, ⟨_, rfl⟩⟩

/-! ## C2: ContractName length bounds -/

/-- C2 counterexample: the claim asserts that constructing a ContractName
from any grammar-conforming string of length 41–128 fails, but
`ValidateContractName` accepts the 41-character string `"aaa…a"` (it checks
only the grammar and the 128-character cap). -/
theorem C2_validate_accepts_41 :
    ValidateContractName (List.replicate 41 97) = .ok (List.replicate 41 97) := by
  rfl

/-- C2 (amended): the 1–40 bound is enforced only on the wire:
`DecodeContractName` fails whenever the declared length byte is outside
`ContractMinNameLength`–`ContractMaxNameLength` (in particular for declared
length 0 and 41–255), while `ValidateContractName` enforces only the grammar
and the 128-character cap — it rejects the empty string and strings longer
than 128 characters but accepts every grammar-conforming string of length up
to 128, including lengths 41–128. -/
theorem C2_contract_name_bounds :
    (∀ (lenByte : Nat) (rest : List Nat), lenByte < 256 →
      lenByte < ContractMinNameLength ∨ ContractMaxNameLength < lenByte →
      DecodeContractName (lenByte :: rest) = .error (.contractNameBadLen lenByte)) ∧
    (∀ s : List Nat, MaxStringLen < s.length →
      ValidateContractName s = .error (.badContractName s)) ∧
    ValidateContractName [] = .error (.badContractName []) ∧
    (∀ s : List Nat, s.length ≤ MaxStringLen → contractNameOk s = true →
      ValidateContractName s = .ok s) := by
  refine ⟨?_, ?_, rfl, ?_⟩
  · intro lenByte rest _ hout
    simp [DecodeContractName, readByte, hout]
  · intro s hlong
    simp [ValidateContractName, hlong]
  · intro s hlen hok
    simp [ValidateContractName, Nat.not_lt.mpr hlen, hok]

/-- C2 witness. -/
theorem C2_contract_name_bounds_witness :
    DecodeContractName (41 :: List.replicate 41 97) = .error (.contractNameBadLen 41) ∧
    ValidateContractName (List.replicate 129 97) =
      .error (.badContractName (List.replicate 129 97)) ∧
    ValidateContractName (List.replicate 41 97) = .ok (List.replicate 41 97) := by
  refine ⟨C2_contract_name_bounds.1 41 (List.replicate 41 97) (by decide) (by decide),
          C2_contract_name_bounds.2.1 (List.replicate 129 97) (by simp [MaxStringLen]),
          C2_contract_name_bounds.2.2.2 (List.replicate 41 97) (by simp [MaxStringLen])
            (by decide)⟩

/-! ## C6: oversize length prefixes are rejected up front -/

/-- C6: for each length-prefixed variant (buffer `0x02`, list `0x0b`, tuple
`0x0c`, string-ascii `0x0d`, string-utf8 `0x0e`), a declared u32 size greater
than `MaxValueSize` (1 MiB) makes the decode fail with the corresponding
oversize error.  The statement quantifies over all continuations `rest`, so
the failure depends only on the header and the 4 length bytes: no element
byte is ever examined. -/
theorem C6_oversize_rejected (b0 b1 b2 b3 : Nat) (rest : List Nat) (wb : Bool)
    (_hbytes : b0 < 256 ∧ b1 < 256 ∧ b2 < 256 ∧ b3 < 256)
    (hsize : MaxValueSize < beNat [b0, b1, b2, b3]) :
    DecodeClarityValue (2 :: b0 :: b1 :: b2 :: b3 :: rest) wb =
      .error .illegalBufferSize ∧
    DecodeClarityValue (11 :: b0 :: b1 :: b2 :: b3 :: rest) wb =
      .error .illegalListSize ∧
    DecodeClarityValue (12 :: b0 :: b1 :: b2 :: b3 :: rest) wb =
      .error .illegalTupleSize ∧
    DecodeClarityValue (13 :: b0 :: b1 :: b2 :: b3 :: rest) wb =
      .error .illegalStringAsciiSize ∧
    DecodeClarityValue (14 :: b0 :: b1 :: b2 :: b3 :: rest) wb =
      .error .illegalStringUtf8Size := by
  refine ⟨?_, ?_, ?_, ?_, ?_⟩ <;>
    simp [DecodeClarityValue, decodeClarityValueInternal, readByte, readU32_cons, hsize,
      wrapResult]

/-- C6 witness: declared length 1048577 = 1 MiB + 1 (bytes `00 10 00 01`). -/
theorem C6_oversize_rejected_witness :
    (0 < 256 ∧ 16 < 256 ∧ 0 < 256 ∧ 1 < 256) ∧
    MaxValueSize < beNat [0, 16, 0, 1] ∧
    DecodeClarityValue [2, 0, 16, 0, 1] false = .error .illegalBufferSize := by
  refine ⟨by decide, by decide, ?_⟩
  exact (C6_oversize_rejected 0 16 0 1 [] false (by decide) (by decide)).1

/-! ## C7: Int/UInt payload layout -/

/-- C7: decoding a type tag `0x00` (Int) or `0x01` (UInt) followed by a
16-byte payload consumes exactly the 16 payload bytes (the remainder is
`rest`) and produces the big-endian value of payload bytes 8–15, interpreted
via the signed two's-complement reinterpretation `toSigned64` for Int and as
the plain unsigned value for UInt; the result is in the signed respectively
unsigned 64-bit range, and payloads agreeing on bytes 8–15 decode to the same
result, so the high 8 payload bytes have no effect. -/
theorem C7_int_uint_layout (payload rest : List Nat) (hlen : payload.length = 16)
    (hbytes : ∀ b ∈ payload, b < 256) :
    DecodeClarityValue (0 :: (payload ++ rest)) false =
      .ok (.mk none (.intV (toSigned64 (beNat (payload.drop 8)))), rest) ∧
    DecodeClarityValue (1 :: (payload ++ rest)) false =
      .ok (.mk none (.uintV (beNat (payload.drop 8))), rest) ∧
    (-(2 ^ 63) ≤ toSigned64 (beNat (payload.drop 8)) ∧
      toSigned64 (beNat (payload.drop 8)) < 2 ^ 63) ∧
    beNat (payload.drop 8) < 2 ^ 64 ∧
    (∀ payload2 : List Nat, payload2.length = 16 → payload2.drop 8 = payload.drop 8 →
      DecodeClarityValue (0 :: (payload2 ++ rest)) false =
        DecodeClarityValue (0 :: (payload ++ rest)) false ∧
      DecodeClarityValue (1 :: (payload2 ++ rest)) false =
        DecodeClarityValue (1 :: (payload ++ rest)) false) := by
  have hchunk : readChunk 16 (payload ++ rest) = .ok (payload, rest) := by
    have := readChunk_exact payload rest
    rwa [hlen] at this
  have hrange : beNat (payload.drop 8) < 2 ^ 64 := by
    have hlt := beNat_lt (payload.drop 8) (fun b hb => hbytes b (List.mem_of_mem_drop hb))
    have hdlen : (payload.drop 8).length = 8 := by simp [hlen]
    rw [hdlen] at hlt
    exact lt_of_lt_of_le hlt (by norm_num)
  have hmain : ∀ (q : List Nat), q.length = 16 →
      DecodeClarityValue (0 :: (q ++ rest)) false =
        .ok (.mk none (.intV (toSigned64 (beNat (q.drop 8)))), rest) ∧
      DecodeClarityValue (1 :: (q ++ rest)) false =
        .ok (.mk none (.uintV (beNat (q.drop 8))), rest) := by
    intro q hq
    have hc : readChunk 16 (q ++ rest) = .ok (q, rest) := by
      have := readChunk_exact q rest
      rwa [hq] at this
    constructor <;>
      simp [DecodeClarityValue, decodeClarityValueInternal, readByte, hc, wrapResult]
  refine ⟨(hmain payload hlen).1, (hmain payload hlen).2, ?_, hrange, ?_⟩
  · unfold toSigned64
    rw [show ((2:Int) ^ 63) = 9223372036854775808 from by norm_num,
        show ((2:Int) ^ 64) = 18446744073709551616 from by norm_num,
        show ((2:Nat) ^ 63) = 9223372036854775808 from by norm_num]
    rw [show ((2:Nat) ^ 64) = 18446744073709551616 from by norm_num] at hrange
    constructor <;> split <;> omega
  · intro payload2 hlen2 hdrop
    rw [(hmain payload hlen).1, (hmain payload hlen).2,
        (hmain payload2 hlen2).1, (hmain payload2 hlen2).2, hdrop]
    exact ⟨rfl, rfl⟩

/-- C7 witness: payload with high half `ff…ff` and low half encoding
`2^63` (which reinterprets to `-2^63 + 0` … concretely bytes
`80 00 00 00 00 00 00 2a`). -/
theorem C7_int_uint_layout_witness :
    ((List.replicate 8 255 ++ [128, 0, 0, 0, 0, 0, 0, 42]).length = 16) ∧
    (∀ b ∈ List.replicate 8 255 ++ [128, 0, 0, 0, 0, 0, 0, 42], b < 256) ∧
    DecodeClarityValue (0 :: ((List.replicate 8 255 ++ [128, 0, 0, 0, 0, 0, 0, 42]) ++ [7]))
        false =
      .ok (.mk none (.intV (toSigned64 (beNat
        ((List.replicate 8 255 ++ [128, 0, 0, 0, 0, 0, 0, 42]).drop 8)))), [7]) := by
  refine ⟨by decide, by decide, ?_⟩
  exact (C7_int_uint_layout (List.replicate 8 255 ++ [128, 0, 0, 0, 0, 0, 0, 42]) [7]
    (by decide) (by decide)).1

end StacksGo
